import Mathlib

/-!
Verification of the commit-graph core of the noms-style versioned value
store (package datas): the commit type algebra (makeCommitType, NewCommit),
the ancestry engine (CommitDescendsFrom, FindCommonAncestor) and the
dataset-name validation.  Machine integers of the source (uint64 heights)
are modelled as Nat; fallible operations (Go panics, type assertions)
return Option; the external value reader is a finite association list from
content hashes to values.  Loops of the source are modelled with an
explicit fuel argument: a result of none means the fuel ran out or a
panic occurred, and termination theorems produce a some result.
-/

namespace Nomstack

/-- Modelled from the spec: the external structural type system (section 3
and section 6 of the spec).  A structural type is a primitive, a struct
with named fields, a set, a reference, a union, or a cyclic back-reference
placeholder (de-Bruijn style index of an enclosing struct). -/
inductive NType where
  | valueT : NType
  | numT : NType
  | strT : NType
  | boolT : NType
  | structT (name : String) (fieldNames : List String) (fieldTypes : List NType) : NType
  | setT (elem : NType) : NType
  | refT (elem : NType) : NType
  | unionT (elems : List NType) : NType
  | cycleT (level : Nat) : NType

mutual

/-- Decidable structural equality of types (the Equals operation of the
external type system). -/
def NType.decEq : (a b : NType) → Decidable (a = b)
  | .valueT, b => by cases b <;> first | exact isTrue rfl | exact isFalse (by intro h; exact NType.noConfusion h)
  | .numT, b => by cases b <;> first | exact isTrue rfl | exact isFalse (by intro h; exact NType.noConfusion h)
  | .strT, b => by cases b <;> first | exact isTrue rfl | exact isFalse (by intro h; exact NType.noConfusion h)
  | .boolT, b => by cases b <;> first | exact isTrue rfl | exact isFalse (by intro h; exact NType.noConfusion h)
  | .structT n1 f1 t1, b => by
      cases b with
      | structT n2 f2 t2 =>
        exact match String.decEq n1 n2, List.hasDecEq f1 f2, NType.decEqList t1 t2 with
        | isTrue h1, isTrue h2, isTrue h3 => isTrue (by rw [h1, h2, h3])
        | isFalse h1, _, _ => isFalse (by intro h; injection h; contradiction)
        | _, isFalse h2, _ => isFalse (by intro h; injection h; contradiction)
        | _, _, isFalse h3 => isFalse (by intro h; injection h; contradiction)
      | _ => exact isFalse (by intro h; exact NType.noConfusion h)
  | .setT e1, b => by
      cases b with
      | setT e2 =>
        exact match NType.decEq e1 e2 with
        | isTrue h => isTrue (by rw [h])
        | isFalse h => isFalse (by intro hh; injection hh; contradiction)
      | _ => exact isFalse (by intro h; exact NType.noConfusion h)
  | .refT e1, b => by
      cases b with
      | refT e2 =>
        exact match NType.decEq e1 e2 with
        | isTrue h => isTrue (by rw [h])
        | isFalse h => isFalse (by intro hh; injection hh; contradiction)
      | _ => exact isFalse (by intro h; exact NType.noConfusion h)
  | .unionT es1, b => by
      cases b with
      | unionT es2 =>
        exact match NType.decEqList es1 es2 with
        | isTrue h => isTrue (by rw [h])
        | isFalse h => isFalse (by intro hh; injection hh; contradiction)
      | _ => exact isFalse (by intro h; exact NType.noConfusion h)
  | .cycleT l1, b => by
      cases b with
      | cycleT l2 =>
        exact match Nat.decEq l1 l2 with
        | isTrue h => isTrue (by rw [h])
        | isFalse h => isFalse (by intro hh; injection hh; contradiction)
      | _ => exact isFalse (by intro h; exact NType.noConfusion h)
termination_by structural a => a

def NType.decEqList : (a b : List NType) → Decidable (a = b)
  | [], [] => isTrue rfl
  | [], _ :: _ => isFalse (by intro h; exact List.noConfusion h)
  | _ :: _, [] => isFalse (by intro h; exact List.noConfusion h)
  | a :: as, b :: bs =>
    match NType.decEq a b, NType.decEqList as bs with
    | isTrue e1, isTrue e2 => isTrue (by rw [e1, e2])
    | isFalse e1, _ => isFalse (by intro h; injection h; contradiction)
    | _, isFalse e2 => isFalse (by intro h; injection h; contradiction)
termination_by structural a => a

end

instance : DecidableEq NType := NType.decEq

/-- One level of union flattening: the alternatives of a union, or the
type itself as a single alternative. -/
def unionElems : NType → List NType
  | .unionT es => es
  | t => [t]

/-- Modelled from the spec: the external MakeUnionType constructor.  It
flattens nested unions, removes duplicate alternatives (union is
idempotent, section 8 of the spec), and a union of a single type is that
type itself. -/
def makeUnionType (ts : List NType) : NType :=
  match (ts.flatMap unionElems).dedup with
  | [t] => t
  | es => .unionT es

def MetaField : String := "meta"

def ParentsField : String := "parents"

def ValueField : String := "value"

/-- Field names of the Commit struct type, in their fixed order. -/
def commitFieldNames : List String := [MetaField, ParentsField, ValueField]

/-- Translation of makeCommitType: computes the structural type of a new
commit from the new value type, value types exposed by the parents, the
new meta type and meta types exposed by the parents. -/
def makeCommitType (valueType : NType) (parentsValueTypes : List NType)
    (metaType : NType) (parentsMetaTypes : List NType) : NType :=
  let parentsValueUnionType := makeUnionType (parentsValueTypes ++ [valueType])
  let parentsMetaUnionType := makeUnionType (parentsMetaTypes ++ [metaType])
  let parentsType :=
    if parentsValueUnionType = valueType ∧ parentsMetaUnionType = metaType then
      NType.setT (.refT (.cycleT 0))
    else
      NType.setT (.refT (.structT "Commit" commitFieldNames
        [parentsMetaUnionType, .setT (.refT (.cycleT 0)), parentsValueUnionType]))
  NType.structT "Commit" commitFieldNames [metaType, parentsType, valueType]

/-- Translation of getSetElementType; the source panics unless the type is
a set, modelled by none. -/
def getSetElementType : NType → Option NType
  | .setT e => some e
  | _ => none

/-- Translation of getRefElementType; the source panics unless the type is
a reference, modelled by none. -/
def getRefElementType : NType → Option NType
  | .refT e => some e
  | _ => none

/-- Looks up a named field of a struct given parallel name and type lists. -/
def lookupField : List String → List NType → String → Option NType
  | n :: ns, t :: ts, name => if n = name then some t else lookupField ns ts name
  | _, _, _ => none

/-- Translation of fieldTypeFromCommit; the source panics unless the type
is a struct named Commit with the requested field. -/
def fieldTypeFromCommit (t : NType) (fieldName : String) : Option NType :=
  match t with
  | .structT name fns fts => if name = "Commit" then lookupField fns fts fieldName else none
  | _ => none

/-- Translation of fieldTypeFromRefOfCommit. -/
def fieldTypeFromRefOfCommit (t : NType) (fieldName : String) : Option NType :=
  (getRefElementType t).bind (fun e => fieldTypeFromCommit e fieldName)

/-- Modelled from the spec: immutable structurally typed values of the
external value system: primitives, references (carrying target hash,
intrinsic height and target type), sets and structs. -/
inductive NValue where
  | num (n : Int) : NValue
  | str (s : String) : NValue
  | refV (targetHash : Nat) (height : Nat) (ttype : NType) : NValue
  | setV (elems : List NValue) : NValue
  | structV (t : NType) (fields : List NValue) : NValue

mutual

def NValue.decEq : (a b : NValue) → Decidable (a = b)
  | .num n1, b => by
      cases b with
      | num n2 =>
        exact match Int.instDecidableEq n1 n2 with
        | isTrue h => isTrue (by rw [h])
        | isFalse h => isFalse (by intro hh; injection hh; contradiction)
      | _ => exact isFalse (by intro h; exact NValue.noConfusion h)
  | .str s1, b => by
      cases b with
      | str s2 =>
        exact match String.decEq s1 s2 with
        | isTrue h => isTrue (by rw [h])
        | isFalse h => isFalse (by intro hh; injection hh; contradiction)
      | _ => exact isFalse (by intro h; exact NValue.noConfusion h)
  | .refV h1 g1 t1, b => by
      cases b with
      | refV h2 g2 t2 =>
        exact match Nat.decEq h1 h2, Nat.decEq g1 g2, NType.decEq t1 t2 with
        | isTrue e1, isTrue e2, isTrue e3 => isTrue (by rw [e1, e2, e3])
        | isFalse e1, _, _ => isFalse (by intro h; injection h; contradiction)
        | _, isFalse e2, _ => isFalse (by intro h; injection h; contradiction)
        | _, _, isFalse e3 => isFalse (by intro h; injection h; contradiction)
      | _ => exact isFalse (by intro h; exact NValue.noConfusion h)
  | .setV es1, b => by
      cases b with
      | setV es2 =>
        exact match NValue.decEqList es1 es2 with
        | isTrue h => isTrue (by rw [h])
        | isFalse h => isFalse (by intro hh; injection hh; contradiction)
      | _ => exact isFalse (by intro h; exact NValue.noConfusion h)
  | .structV t1 f1, b => by
      cases b with
      | structV t2 f2 =>
        exact match NType.decEq t1 t2, NValue.decEqList f1 f2 with
        | isTrue e1, isTrue e2 => isTrue (by rw [e1, e2])
        | isFalse e1, _ => isFalse (by intro h; injection h; contradiction)
        | _, isFalse e2 => isFalse (by intro h; injection h; contradiction)
      | _ => exact isFalse (by intro h; exact NValue.noConfusion h)
termination_by structural a => a

def NValue.decEqList : (a b : List NValue) → Decidable (a = b)
  | [], [] => isTrue rfl
  | [], _ :: _ => isFalse (by intro h; exact List.noConfusion h)
  | _ :: _, [] => isFalse (by intro h; exact List.noConfusion h)
  | a :: as, b :: bs =>
    match NValue.decEq a b, NValue.decEqList as bs with
    | isTrue e1, isTrue e2 => isTrue (by rw [e1, e2])
    | isFalse e1, _ => isFalse (by intro h; injection h; contradiction)
    | _, isFalse e2 => isFalse (by intro h; injection h; contradiction)
termination_by structural a => a

end

instance : DecidableEq NValue := NValue.decEq

mutual

/-- Modelled from the spec: the structural type of a value.  The type of a
set is the set of the union of its element types; a struct carries its
computed type. -/
def typeOf : NValue → NType
  | .num _ => .numT
  | .str _ => .strT
  | .refV _ _ t => .refT t
  | .setV es => .setT (makeUnionType (typeOfList es))
  | .structV t _ => t
termination_by structural v => v

def typeOfList : List NValue → List NType
  | [] => []
  | v :: vs => typeOf v :: typeOfList vs
termination_by structural vs => vs

end

mutual

/-- Modelled from the spec: the maximal height among the references
contained in a value (0 when it contains none); a reference to the value
has height one more than this (section 3 of the spec). -/
def maxRefHeight : NValue → Nat
  | .num _ => 0
  | .str _ => 0
  | .refV _ h _ => h
  | .setV es => maxRefHeightList es
  | .structV _ fs => maxRefHeightList fs
termination_by structural v => v

def maxRefHeightList : List NValue → Nat
  | [] => 0
  | v :: vs => max (maxRefHeight v) (maxRefHeightList vs)
termination_by structural vs => vs

end

/-- Translation of valueTypesFromParents: the distinct commit field types
exposed by the parents set, read off the element type of the set type. -/
def valueTypesFromParents (parents : NValue) (fieldName : String) : Option (List NType) :=
  (getSetElementType (typeOf parents)).bind fun elemType =>
    match elemType with
    | .unionT es => es.mapM (fun rt => fieldTypeFromRefOfCommit rt fieldName)
    | t => (fieldTypeFromRefOfCommit t fieldName).map (fun ft => [ft])

/-- Translation of NewCommit: computes the commit type from the value
type, the parents and the meta type, and builds the commit struct with
fields in order meta, parents, value. -/
def NewCommit (value : NValue) (parents : NValue) (meta : NValue) : Option NValue := do
  let pv ← valueTypesFromParents parents ValueField
  let pm ← valueTypesFromParents parents MetaField
  let t := makeCommitType (typeOf value) pv (typeOf meta) pm
  pure (.structV t [meta, parents, value])

/-- Modelled from the spec: the structural subtype test of the external
type system (section 6 of the spec), with fuel standing in for the
cycle-unrolling termination mechanism.  The test isSubtypeF fuel rs cs
req con decides whether con is a subtype of req: equal types are subtypes,
a concrete union requires all alternatives to conform, a required union
requires one alternative to match, Value is the top type, sets and
references are covariant, a required struct must have its name (empty
required names match any name) and each of its fields present in the
concrete struct at a conforming type, and a cyclic placeholder is resolved
against the stack of enclosing structs of its own side. -/
def isSubtypeF : Nat → List NType → List NType → NType → NType → Bool
  | 0, _, _, _, _ => false
  | n + 1, reqS, conS, req, con =>
    if req = con then true
    else
      match con with
      | .unionT csAlts => csAlts.all (fun c => isSubtypeF n reqS conS req c)
      | _ =>
        match req with
        | .unionT rsAlts => rsAlts.any (fun r => isSubtypeF n reqS conS r con)
        | .cycleT l =>
          match reqS.get? l with
          | some r => isSubtypeF n reqS conS r con
          | none => false
        | _ =>
          match con with
          | .cycleT l =>
            match conS.get? l with
            | some c => isSubtypeF n reqS conS req c
            | none => false
          | _ =>
            match req, con with
            | .valueT, _ => true
            | .setT re, .setT ce => isSubtypeF n reqS conS re ce
            | .refT re, .refT ce => isSubtypeF n reqS conS re ce
            | .structT rn rfns rfts, .structT cn cfns cfts =>
              (rn = "" || rn = cn) &&
              (rfns.zip rfts).all (fun p =>
                match lookupField cfns cfts p.1 with
                | some ct => isSubtypeF n (.structT rn rfns rfts :: reqS) (.structT cn cfns cfts :: conS) p.2 ct
                | none => false)
            | _, _ => false

mutual

/-- Node count of a type, used to pick the subtype-test fuel. -/
def sizeT : NType → Nat
  | .structT _ _ fts => 1 + sizeTList fts
  | .setT e => 1 + sizeT e
  | .refT e => 1 + sizeT e
  | .unionT es => 1 + sizeTList es
  | _ => 1
termination_by structural t => t

def sizeTList : List NType → Nat
  | [] => 0
  | t :: ts => sizeT t + sizeTList ts
termination_by structural ts => ts

end

/-- Modelled from the spec: top level subtype entry point with fuel large
enough for the types compared here. -/
def IsSubtype (req con : NType) : Bool :=
  isSubtypeF ((sizeT req + 1) * (sizeT con + 1) + 64) [] [] req con

/-- Translation of the valueCommitType constant: the most general commit
type, computed by makeCommitType from the Value type and the empty struct
type. -/
def valueCommitType : NType :=
  makeCommitType .valueT [] (.structT "" [] []) []

/-- Translation of IsCommitType. -/
def IsCommitType (t : NType) : Bool :=
  IsSubtype valueCommitType t

/-- Translation of IsRefOfCommitType: a reference type whose target type
passes IsCommitType. -/
def IsRefOfCommitType (t : NType) : Bool :=
  match t with
  | .refT e => IsCommitType e
  | _ => false

/-- A reference record as manipulated by the ancestry engine: content hash
of the target, intrinsic height, and target type. -/
structure NRef where
  targetHash : Nat
  height : Nat
  ttype : NType
  deriving DecidableEq

/-- Modelled from the spec: the external value reader capability, as a
finite association list from content hashes to stored values. -/
abbrev Store := List (Nat × NValue)

/-- Dereference of a content hash against the reader; none models the
panic on a missing value. -/
def readValue (vr : Store) (h : Nat) : Option NValue :=
  (vr.find? (fun p => p.1 == h)).map Prod.snd

/-- Looks up a named field of a struct value given the field names of its
type; none models the panic of Struct.Get on a missing field. -/
def lookupFieldV : List String → List NValue → String → Option NValue
  | n :: ns, v :: vs, name => if n = name then some v else lookupFieldV ns vs name
  | _, _, _ => none

/-- Field access on a struct value by name; none models the panic of the
struct cast or of Struct.Get. -/
def structGet (v : NValue) (name : String) : Option NValue :=
  match v with
  | .structV (.structT _ fns _) fields => lookupFieldV fns fields name
  | _ => none

/-- Casts each element of a list of set elements to a reference; none
models the cast panic on a non-reference element. -/
def refsOfList : List NValue → Option (List NRef)
  | [] => some []
  | .refV h ht t :: rest => (refsOfList rest).map (fun ps => ⟨h, ht, t⟩ :: ps)
  | _ => none

/-- Casts each element of a set value to a reference, as the ancestry
engine does when iterating a parents set; none models the cast panic. -/
def refsOfSet : NValue → Option (List NRef)
  | .setV es => refsOfList es
  | _ => none

/-- The parents references of a commit value: field parents read as a set
of references. -/
def commitParentsOfValue (c : NValue) : Option (List NRef) :=
  (structGet c ParentsField).bind refsOfSet

/-- Dereferences a commit reference and extracts its parents set, as done
by parentsToQueue and getAncestors in the source. -/
def commitParents (vr : Store) (r : NRef) : Option (List NRef) := do
  let c ← readValue vr r.targetHash
  commitParentsOfValue c

/-- Translation of getAncestors: the next frontier, made of the parents
of height at least minHeight of every frontier commit of height strictly
above minHeight.  The source iterates the frontier set inserting the
kept parents of each commit; every frontier reference is dereferenced
(the source dereferences before testing the height). -/
def getAncestors (vr : Store) (commits : List NRef) (minHeight : Nat) : Option (List NRef) :=
  match commits with
  | [] => some []
  | r :: rest => do
    let ps ← commitParents vr r
    let tail ← getAncestors vr rest minHeight
    pure ((if minHeight < r.height then ps.filter (fun p => minHeight ≤ p.height) else []) ++ tail)

/-- Translation of the loop of CommitDescendsFrom, with fuel: none means
the fuel ran out or a dereference panicked. -/
def commitDescendsFromLoop (vr : Store) (ancestor : NRef) : Nat → List NRef → Option Bool
  | 0, _ => none
  | fuel + 1, ancestors =>
    if ancestor ∈ ancestors then some true
    else if ancestors = [] then some false
    else do
      let next ← getAncestors vr ancestors ancestor.height
      commitDescendsFromLoop vr ancestor fuel next

/-- Translation of CommitDescendsFrom: a breadth-expanding search seeded
from the parents of the commit. -/
def CommitDescendsFrom (commit : NValue) (ancestor : NRef) (vr : Store) (fuel : Nat) : Option Bool := do
  let p ← structGet commit ParentsField
  let init ← refsOfSet p
  commitDescendsFromLoop vr ancestor fuel init

/-- Modelled from the spec: the maximal height present in a height-ordered
frontier (RefByHeight.MaxHeight). -/
def maxHeightQ (q : List NRef) : Nat :=
  q.foldl (fun m r => max m r.height) 0

/-- Modelled from the spec: RefByHeight.PopRefsOfHeight, splitting the
frontier into the references at the given height and the rest.  The
frontier is kept as a plain list; only pop-all-at-a-height and push are
ever used, so the sorting of the source is immaterial, and the order of a
popped group reflects insertion order. -/
def popRefsOfHeight (q : List NRef) (h : Nat) : List NRef × List NRef :=
  (q.filter (fun r => r.height = h), q.filter (fun r => ¬ r.height = h))

/-- The concatenated parents of a list of commit references, in order. -/
def parentsOfAll (vr : Store) : List NRef → Option (List NRef)
  | [] => some []
  | r :: rest => do
    let ps ← commitParents vr r
    let tail ← parentsOfAll vr rest
    pure (ps ++ tail)

/-- Translation of parentsToQueue: pushes the parents of each popped
commit reference back into the frontier.  The re-sort of the source is
omitted: the frontier is a plain list popped by height filtering, so only
its membership matters. -/
def parentsToQueue (refs : List NRef) (q : List NRef) (vr : Store) : Option (List NRef) :=
  (parentsOfAll vr refs).map (fun ps => q ++ ps)

/-- Translation of findCommonRef: the first reference of the first group
whose target hash occurs in the second group.  The source iterates a
hash-keyed Go map in unspecified order; the model uses the group order. -/
def findCommonRef (a b : List NRef) : Option NRef :=
  a.find? (fun r => (b.map NRef.targetHash).contains r.targetHash)

/-- Cast of a value to a struct; none models the cast panic. -/
def asStruct : NValue → Option NValue
  | .structV t fs => some (.structV t fs)
  | _ => none

/-- Translation of the loop of FindCommonAncestor over the two frontiers:
some none is the successful no-common-ancestor outcome, some (some a) is
a found ancestor, none means the fuel ran out or a dereference panicked. -/
def fcaLoop (vr : Store) : Nat → List NRef → List NRef → Option (Option NValue)
  | 0, _, _ => none
  | fuel + 1, c1Q, c2Q =>
    if c1Q = [] ∨ c2Q = [] then some none
    else
      let c1Ht := maxHeightQ c1Q
      let c2Ht := maxHeightQ c2Q
      if c1Ht = c2Ht then
        let c1Parents := (popRefsOfHeight c1Q c1Ht).1
        let c2Parents := (popRefsOfHeight c2Q c2Ht).1
        match findCommonRef c1Parents c2Parents with
        | some common => do
            let v ← readValue vr common.targetHash
            let s ← asStruct v
            pure (some s)
        | none => do
            let q1 ← parentsToQueue c1Parents (popRefsOfHeight c1Q c1Ht).2 vr
            let q2 ← parentsToQueue c2Parents (popRefsOfHeight c2Q c2Ht).2 vr
            fcaLoop vr fuel q1 q2
      else if c1Ht > c2Ht then do
        let q1 ← parentsToQueue (popRefsOfHeight c1Q c1Ht).1 (popRefsOfHeight c1Q c1Ht).2 vr
        fcaLoop vr fuel q1 c2Q
      else do
        let q2 ← parentsToQueue (popRefsOfHeight c2Q c2Ht).1 (popRefsOfHeight c2Q c2Ht).2 vr
        fcaLoop vr fuel c1Q q2

/-- Outcome of an operation guarded by a fatal precondition check. -/
inductive PanicOr (α : Type) where
  | panicked : PanicOr α
  | ok : α → PanicOr α
  deriving DecidableEq

/-- Modelled from the spec: types.NewRef builds a reference to a value,
with the intrinsic height one more than the maximal height of the
references the value contains; the content hash is supplied by the
external hashing capability hashF. -/
def NewRef (v : NValue) (hashF : NValue → Nat) : NRef :=
  ⟨hashF v, maxRefHeight v + 1, typeOf v⟩

/-- Translation of FindCommonAncestor: panics unless both arguments are
commit-typed, then runs the synchronized dual frontier search. -/
def FindCommonAncestor (c1 c2 : NValue) (vr : Store) (hashF : NValue → Nat)
    (fuel : Nat) : PanicOr (Option (Option NValue)) :=
  if ¬ (IsCommitType (typeOf c1) = true) then .panicked
  else if ¬ (IsCommitType (typeOf c2) = true) then .panicked
  else .ok (fcaLoop vr fuel [NewRef c1 hashF] [NewRef c2 hashF])

/-- A reference is coherent with the store when its target is present and
its height is the intrinsic height of the target. -/
def coherentRef (vr : Store) (r : NRef) : Prop :=
  ∃ w, readValue vr r.targetHash = some w ∧ r.height = maxRefHeight w + 1

instance (vr : Store) (r : NRef) : Decidable (coherentRef vr r) := by
  unfold coherentRef
  cases readValue vr r.targetHash with
  | none => exact isFalse (by rintro ⟨w, hw, _⟩; exact Option.noConfusion hw)
  | some w =>
    exact decidable_of_iff (r.height = maxRefHeight w + 1)
      ⟨fun h => ⟨w, rfl, h⟩, fun ⟨w2, hw2, h2⟩ => by cases hw2; exact h2⟩

/-- A well-formed store: hashes are unambiguous, every stored value is a
commit struct with a readable parents set, and every parent reference is
coherent.  This captures the height invariant of section 3 of the spec,
since a reference contained in a value bounds the intrinsic height of
that value from below. -/
def WFStore (vr : Store) : Prop :=
  (vr.map Prod.fst).Nodup ∧
  ∀ p ∈ vr, ∃ ps, commitParentsOfValue p.2 = some ps ∧ ∀ r ∈ ps, coherentRef vr r

instance (vr : Store) : Decidable (WFStore vr) := by
  unfold WFStore
  infer_instance

/-- Fuel-bounded ancestry relation: reachB vr n c r holds when r is a
direct parent of the commit value c or, recursively, an ancestor
reference of a dereferenced parent, within n steps. -/
def reachB (vr : Store) : Nat → NValue → NRef → Bool
  | 0, _, _ => false
  | n + 1, c, r =>
    match commitParentsOfValue c with
    | none => false
    | some ps =>
      ps.contains r ||
      ps.any (fun p =>
        match readValue vr p.targetHash with
        | some w => reachB vr n w r
        | none => false)

/-- A frontier reference leads to the ancestor reference: it is the
ancestor itself, or its dereferenced target reaches the ancestor. -/
def RefReach (vr : Store) (f anc : NRef) : Prop :=
  f = anc ∨ ∃ n w, readValue vr f.targetHash = some w ∧ reachB vr n w anc = true

/-- A list of hashes closed under the parent relation of the store. -/
def hashesClosed (vr : Store) (A : List Nat) : Bool :=
  A.all (fun h =>
    match readValue vr h with
    | none => true
    | some w =>
      match commitParentsOfValue w with
      | none => true
      | some ps => ps.all (fun p => A.contains p.targetHash))

/-- At most one target hash is shared between two popped groups. -/
def atMostOneCommonHash (g1 g2 : List NRef) : Bool :=
  let cs := (g1.map NRef.targetHash).filter (fun h => (g2.map NRef.targetHash).contains h)
  cs.all (fun a => cs.all (fun b => a == b))

/-- The tie-freedom condition under which the common-ancestor search is
insensitive to frontier iteration order: along the run, whenever the two
frontiers pop groups of equal height, the groups share at most one target
hash. -/
def noTies (vr : Store) : Nat → List NRef → List NRef → Bool
  | 0, _, _ => true
  | fuel + 1, c1Q, c2Q =>
    if c1Q = [] ∨ c2Q = [] then true
    else
      let c1Ht := maxHeightQ c1Q
      let c2Ht := maxHeightQ c2Q
      if c1Ht = c2Ht then
        let c1Parents := (popRefsOfHeight c1Q c1Ht).1
        let c2Parents := (popRefsOfHeight c2Q c2Ht).1
        atMostOneCommonHash c1Parents c2Parents &&
        (match findCommonRef c1Parents c2Parents with
         | some _ => true
         | none =>
           match parentsToQueue c1Parents (popRefsOfHeight c1Q c1Ht).2 vr,
                 parentsToQueue c2Parents (popRefsOfHeight c2Q c2Ht).2 vr with
           | some q1, some q2 => noTies vr fuel q1 q2
           | _, _ => true)
      else if c1Ht > c2Ht then
        match parentsToQueue (popRefsOfHeight c1Q c1Ht).1 (popRefsOfHeight c1Q c1Ht).2 vr with
        | some q1 => noTies vr fuel q1 c2Q
        | none => true
      else
        match parentsToQueue (popRefsOfHeight c2Q c2Ht).1 (popRefsOfHeight c2Q c2Ht).2 vr with
        | some q2 => noTies vr fuel c1Q q2
        | none => true

/-- The run of the common-ancestor loop ends by one frontier emptying
(rather than by finding a common reference, running out of fuel, or a
dereference panic). -/
def fcaExitsEmpty (vr : Store) : Nat → List NRef → List NRef → Bool
  | 0, _, _ => false
  | fuel + 1, c1Q, c2Q =>
    if c1Q = [] ∨ c2Q = [] then true
    else
      let c1Ht := maxHeightQ c1Q
      let c2Ht := maxHeightQ c2Q
      if c1Ht = c2Ht then
        let c1Parents := (popRefsOfHeight c1Q c1Ht).1
        let c2Parents := (popRefsOfHeight c2Q c2Ht).1
        match findCommonRef c1Parents c2Parents with
        | some _ => false
        | none =>
          match parentsToQueue c1Parents (popRefsOfHeight c1Q c1Ht).2 vr,
                parentsToQueue c2Parents (popRefsOfHeight c2Q c2Ht).2 vr with
          | some q1, some q2 => fcaExitsEmpty vr fuel q1 q2
          | _, _ => false
      else if c1Ht > c2Ht then
        match parentsToQueue (popRefsOfHeight c1Q c1Ht).1 (popRefsOfHeight c1Q c1Ht).2 vr with
        | some q1 => fcaExitsEmpty vr fuel q1 c2Q
        | none => false
      else
        match parentsToQueue (popRefsOfHeight c2Q c2Ht).1 (popRefsOfHeight c2Q c2Ht).2 vr with
        | some q2 => fcaExitsEmpty vr fuel c1Q q2
        | none => false

/-- Modelled from the spec: regular expressions as matched by the Go
regexp package on the dataset-name patterns (character classes,
concatenation, alternation, Kleene star). -/
inductive Regex where
  | emptyR : Regex
  | epsR : Regex
  | charC (p : Char → Bool) : Regex
  | catR (a b : Regex) : Regex
  | altR (a b : Regex) : Regex
  | starR (a : Regex) : Regex

/-- Whether a regular expression accepts the empty string. -/
def nullable : Regex → Bool
  | .emptyR => false
  | .epsR => true
  | .charC _ => false
  | .catR a b => nullable a && nullable b
  | .altR a b => nullable a || nullable b
  | .starR _ => true

/-- Concatenation smart constructor (normalises the empty and epsilon
languages). -/
def catS : Regex → Regex → Regex
  | .emptyR, _ => .emptyR
  | _, .emptyR => .emptyR
  | .epsR, b => b
  | a, .epsR => a
  | a, b => .catR a b

/-- Alternation smart constructor. -/
def altS : Regex → Regex → Regex
  | .emptyR, b => b
  | a, .emptyR => a
  | a, b => .altR a b

/-- Brzozowski derivative of a regular expression by a character. -/
def derivR : Regex → Char → Regex
  | .emptyR, _ => .emptyR
  | .epsR, _ => .emptyR
  | .charC p, c => if p c then .epsR else .emptyR
  | .catR a b, c =>
    if nullable a then altS (catS (derivR a c) b) (derivR b c)
    else catS (derivR a c) b
  | .altR a b, c => altS (derivR a c) (derivR b c)
  | .starR a, c => catS (derivR a c) (.starR a)

/-- Derivative-based whole-string matching: the anchored match used by a
pattern of the form caret, body, dollar. -/
def rmatch : Regex → List Char → Bool
  | r, [] => nullable r
  | r, c :: cs => rmatch (derivR r c) cs

/-- The character class of the dataset-name pattern: ASCII lower and upper
letters, digits, hyphen, underscore and forward slash. -/
def datasetClassChar (c : Char) : Bool :=
  ('a' ≤ c && c ≤ 'z') || ('A' ≤ c && c ≤ 'Z') || ('0' ≤ c && c ≤ '9') ||
  c = '-' || c = '_' || c = '/'

/-- Translation of DatasetRe: one or more characters of the dataset
character class. -/
def DatasetRe : Regex :=
  .catR (.charC datasetClassChar) (.starR (.charC datasetClassChar))

/-- Translation of DatasetFullRe: the same pattern anchored at both ends,
so matching it means the whole string matches DatasetRe. -/
def DatasetFullReMatch (s : String) : Bool :=
  rmatch DatasetRe s.toList

/-- Translation of IsValidDatasetName. -/
def IsValidDatasetName (name : String) : Bool :=
  DatasetFullReMatch name

/-- The parents field type of a commit type. -/
def parentsFieldTypeOf (t : NType) : Option NType :=
  match t with
  | .structT _ fns fts => lookupField fns fts ParentsField
  | _ => none

/-- Modelled from the spec: the maximally general commit type as the
claim words it, with meta of type Value and parents of type Set of Ref of
the empty struct. -/
def claimedGeneralCommitType : NType :=
  .structT "Commit" commitFieldNames
    [.valueT, .setT (.refT (.structT "" [] [])), .valueT]

/-- A commit-named struct type with number meta and number value, used to
separate the two readings of the general commit type: its meta field is
not a struct, and its parents reference target is an anonymous struct. -/
def numMetaCommitT : NType :=
  .structT "Commit" commitFieldNames
    [.numT, .setT (.refT (.structT "" [] [])), .numT]

/-- Modelled from the spec: the frontier replacement step as the claim
words it, the union of the parents of every frontier commit whose height
strictly exceeds the ancestor height, without any filtering of the
parents themselves. -/
def claimedNextFrontier (vr : Store) (commits : List NRef) (minHeight : Nat) : Option (List NRef) :=
  match commits with
  | [] => some []
  | r :: rest => do
    let ps ← commitParents vr r
    let tail ← claimedNextFrontier vr rest minHeight
    pure ((if minHeight < r.height then ps else []) ++ tail)

/-- A chain of commits built with NewCommit: the list gives, newest
first, the value, meta and parent hash of each later commit; the chain
starts from a first commit with empty parents. -/
def homogeneousChain (v0 meta0 : NValue) : List (NValue × NValue × Nat) → Option NValue
  | [] => NewCommit v0 (.setV []) meta0
  | (v, m, h) :: rest => do
    let prev ← homogeneousChain v0 meta0 rest
    NewCommit v (.setV [.refV h (maxRefHeight prev + 1) (typeOf prev)]) m

/-- The empty struct type. -/
def emptyStructT : NType := .structT "" [] []

/-- The empty struct value, used as trivial commit meta in examples. -/
def emptyStructV : NValue := .structV emptyStructT []

/-- The homogeneous commit type with empty-struct meta and number value. -/
def exNumCommitT : NType :=
  .structT "Commit" commitFieldNames [emptyStructT, .setT (.refT (.cycleT 0)), .numT]

/-- The homogeneous commit type with empty-struct meta and string value. -/
def exStrCommitT : NType :=
  .structT "Commit" commitFieldNames [emptyStructT, .setT (.refT (.cycleT 0)), .strT]

/-- A root commit value with number payload 1. -/
def exRoot1 : NValue := .structV exNumCommitT [emptyStructV, .setV [], .num 1]

/-- A root commit value with number payload 2. -/
def exRoot2 : NValue := .structV exNumCommitT [emptyStructV, .setV [], .num 2]

/-- A commit whose parents set holds references to exRoot1 then exRoot2. -/
def exChild12 : NValue :=
  .structV exNumCommitT
    [emptyStructV, .setV [.refV 10 1 exNumCommitT, .refV 11 1 exNumCommitT], .num 3]

/-- A commit whose parents set holds references to exRoot2 then exRoot1. -/
def exChild21 : NValue :=
  .structV exNumCommitT
    [emptyStructV, .setV [.refV 11 1 exNumCommitT, .refV 10 1 exNumCommitT], .num 4]

/-- Store for the tie-breaking example: two distinct roots, both parents
of two child commits that list them in opposite orders. -/
def exTieStore : Store :=
  [(10, exRoot1), (11, exRoot2), (12, exChild12), (13, exChild21)]

/-- Concrete content hashes for the tie-breaking example. -/
def exTieHash (v : NValue) : Nat :=
  if v = exRoot1 then 10
  else if v = exRoot2 then 11
  else if v = exChild12 then 12
  else if v = exChild21 then 13
  else 99

/-- A commit whose reference has height 2: its payload contains a height-1
reference, while it has no parents. -/
def exRootHigh : NValue :=
  .structV (.structT "Commit" commitFieldNames
      [emptyStructT, .setT (.refT (.cycleT 0)), .refT .numT])
    [emptyStructV, .setV [], .refV 30 1 .numT]

/-- A plain root commit whose reference has height 1. -/
def exRootLow : NValue := .structV exNumCommitT [emptyStructV, .setV [], .num 5]

/-- A commit with one parent at height 2 and one parent at height 1. -/
def exMixedChild : NValue :=
  .structV exNumCommitT
    [emptyStructV,
     .setV [.refV 21 2 (typeOf exRootHigh), .refV 22 1 exNumCommitT],
     .num 6]

/-- Store for the frontier-step example. -/
def exMixedStore : Store :=
  [(20, exMixedChild), (21, exRootHigh), (22, exRootLow)]

/-- A commit whose single parent is exRoot1 (stored at hash 1). -/
def exDescB : NValue :=
  .structV exNumCommitT [emptyStructV, .setV [.refV 1 1 exNumCommitT], .num 7]

/-- Store for the descent example: a root at hash 1 and a child at hash 2. -/
def exDescStore : Store := [(1, exRoot1), (2, exDescB)]

/-- Concrete content hashes for the descent example. -/
def exDescHash (v : NValue) : Nat :=
  if v = exRoot1 then 1 else if v = exDescB then 2 else 99

/-- An independent root commit, unrelated to exRoot1. -/
def exRootOther : NValue := .structV exNumCommitT [emptyStructV, .setV [], .num 9]

/-- Store with two independent parentless roots at hashes 1 and 3. -/
def exDisjStore : Store := [(1, exRoot1), (3, exRootOther)]

/-- Concrete content hashes for the disjoint-roots example. -/
def exDisjHash (v : NValue) : Nat :=
  if v = exRoot1 then 1 else if v = exRootOther then 3 else 99

/-- A second commit whose single parent is exRoot1. -/
def exDescB2 : NValue :=
  .structV exNumCommitT [emptyStructV, .setV [.refV 1 1 exNumCommitT], .num 8]

/-- Store with one root (hash 1) and two children of it (hashes 2 and 4):
a diamond with a unique common ancestor. -/
def exSymStore : Store := [(1, exRoot1), (2, exDescB), (4, exDescB2)]

/-- Concrete content hashes for the diamond example. -/
def exSymHash (v : NValue) : Nat :=
  if v = exRoot1 then 1 else if v = exDescB then 2 else if v = exDescB2 then 4 else 99

theorem rmatch_emptyR (cs : List Char) : rmatch .emptyR cs = false := by
  induction cs with
  | nil => rfl
  | cons c cs ih => simpa [rmatch, derivR] using ih

theorem rmatch_star_class (p : Char → Bool) (cs : List Char) :
    rmatch (.starR (.charC p)) cs = cs.all p := by
  induction cs with
  | nil => rfl
  | cons c cs ih =>
    by_cases h : p c = true
    · simp [rmatch, derivR, catS, h, ih]
    · simp only [Bool.not_eq_true] at h
      simp [rmatch, derivR, catS, h, rmatch_emptyR]

theorem datasetClassChar_eq_claim (c : Char) :
    datasetClassChar c =
      (c.isAlpha || c.isDigit || c == '-' || c == '_' || c == '/') := by
  rw [Bool.eq_iff_iff]
  simp [datasetClassChar, Char.isAlpha, Char.isUpper, Char.isLower, Char.isDigit]
  tauto

/-- C10: IsValidDatasetName accepts exactly the non-empty strings all of
whose characters are ASCII letters, digits, hyphen, underscore or forward
slash. -/
theorem isValidDatasetName_iff (name : String) :
    IsValidDatasetName name =
      (!name.toList.isEmpty &&
        name.toList.all (fun c => c.isAlpha || c.isDigit || c == '-' || c == '_' || c == '/')) := by
  have hclass : (name.toList.all datasetClassChar) =
      name.toList.all (fun c => c.isAlpha || c.isDigit || c == '-' || c == '_' || c == '/') := by
    induction name.toList with
    | nil => rfl
    | cons c cs ih => simp [List.all_cons, ih, datasetClassChar_eq_claim c]
  rw [← hclass]
  unfold IsValidDatasetName DatasetFullReMatch DatasetRe
  cases h : name.toList with
  | nil => rfl
  | cons c cs =>
    by_cases hc : datasetClassChar c = true
    · simp [rmatch, derivR, nullable, catS, hc, rmatch_star_class]
    · simp only [Bool.not_eq_true] at hc
      simp [rmatch, derivR, nullable, catS, hc, rmatch_emptyR]

/-- C8: FindCommonAncestor called on an argument that is not commit-typed
panics immediately and returns no normal result. -/
theorem findCommonAncestor_panics_on_non_commit (c1 c2 : NValue) (vr : Store)
    (hashF : NValue → Nat) (fuel : Nat)
    (h : IsCommitType (typeOf c1) = false ∨ IsCommitType (typeOf c2) = false) :
    FindCommonAncestor c1 c2 vr hashF fuel = .panicked := by
  unfold FindCommonAncestor
  rcases h with h | h
  · simp [h]
  · by_cases h1 : IsCommitType (typeOf c1) = true
    · simp [h1, h]
    · simp [h1]

theorem findCommonAncestor_panics_on_non_commit_witness :
    (IsCommitType (typeOf (.num 1)) = false ∨ IsCommitType (typeOf (.num 2)) = false) ∧
      FindCommonAncestor (.num 1) (.num 2) [] (fun _ => 0) 3 = .panicked :=
  ⟨Or.inl (by decide),
   findCommonAncestor_panics_on_non_commit (.num 1) (.num 2) [] (fun _ => 0) 3
     (Or.inl (by decide))⟩

/-- C7 counterexample: a type that is a structural subtype of the general
commit type exactly as the claim words it (meta of type Value, parents of
type Set of Ref of the empty struct) yet is rejected by IsCommitType, so
the claimed equivalence fails. -/
theorem isCommitType_not_claimed_general :
    IsSubtype claimedGeneralCommitType numMetaCommitT = true ∧
      IsCommitType numMetaCommitT = false := by
  constructor
  · decide
  · decide

/-- C7 amended: IsCommitType tests structural subtyping against the
cyclic general commit type computed by makeCommitType, whose meta field
requires a struct (the empty struct type) and whose parents element type
is a reference to the commit type itself (cyclic placeholder), not the
type the claim words. -/
theorem isCommitType_eq_subtype_cyclic_general (t : NType) :
    IsCommitType t =
      IsSubtype
        (.structT "Commit" commitFieldNames
          [.structT "" [] [], .setT (.refT (.cycleT 0)), .valueT]) t := rfl

theorem union_eq_right {l1 l2 : List NType} (h : ∀ x ∈ l1, x ∈ l2) :
    l1 ∪ l2 = l2 := by
  induction l1 with
  | nil => rfl
  | cons a l ih =>
    rw [List.cons_union, ih (fun x hx => h x (List.mem_cons_of_mem a hx)),
      List.insert_of_mem (h a (List.mem_cons_self a l))]

theorem makeUnionType_pair (T : NType) (hT : makeUnionType [T] = T) :
    makeUnionType [T, T] = T := by
  have hflat : ([T, T].flatMap unionElems) = unionElems T ++ unionElems T := by
    simp [List.flatMap_cons, List.flatMap_nil]
  have hsingle : ([T].flatMap unionElems) = unionElems T := by
    simp [List.flatMap_cons, List.flatMap_nil]
  have hd : ([T, T].flatMap unionElems).dedup = ([T].flatMap unionElems).dedup := by
    rw [hflat, hsingle, List.dedup_append]
    exact union_eq_right (fun x hx => List.mem_dedup.mpr hx)
  unfold makeUnionType at hT ⊢
  rw [hd]
  exact hT

/-- In the homogeneous case (all parent field unions collapse onto the
new commit field types) NewCommit builds a commit whose parents field
type is the cyclic form. -/
theorem newCommit_homogeneous (value parents meta : NValue) (pv pm : List NType)
    (hpv : valueTypesFromParents parents ValueField = some pv)
    (hpm : valueTypesFromParents parents MetaField = some pm)
    (hv : makeUnionType (pv ++ [typeOf value]) = typeOf value)
    (hm : makeUnionType (pm ++ [typeOf meta]) = typeOf meta) :
    NewCommit value parents meta =
      some (.structV (.structT "Commit" commitFieldNames
        [typeOf meta, .setT (.refT (.cycleT 0)), typeOf value]) [meta, parents, value]) := by
  simp [NewCommit, makeCommitType, hpv, hpm, hv, hm]

/-- C1 amended: in the heterogeneous case NewCommit builds a commit whose
parents field type is Set of Ref of one single explicit non-cyclic Commit
struct whose meta and value fields are the unions of the distinct parent
field types plus the new commit types (not a union of one struct per
distinct value-meta combination). -/
theorem newCommit_heterogeneous (value parents meta : NValue) (pv pm : List NType)
    (hpv : valueTypesFromParents parents ValueField = some pv)
    (hpm : valueTypesFromParents parents MetaField = some pm)
    (hhet : ¬(makeUnionType (pv ++ [typeOf value]) = typeOf value ∧
        makeUnionType (pm ++ [typeOf meta]) = typeOf meta)) :
    NewCommit value parents meta =
      some (.structV (.structT "Commit" commitFieldNames
        [typeOf meta,
         .setT (.refT (.structT "Commit" commitFieldNames
           [makeUnionType (pm ++ [typeOf meta]), .setT (.refT (.cycleT 0)),
            makeUnionType (pv ++ [typeOf value])])),
         typeOf value]) [meta, parents, value]) := by
  simp [NewCommit, makeCommitType, hpv, hpm, if_neg hhet]

theorem newCommit_heterogeneous_witness :
    valueTypesFromParents (.setV [.refV 8 2 exNumCommitT]) ValueField = some [.numT] ∧
    valueTypesFromParents (.setV [.refV 8 2 exNumCommitT]) MetaField = some [emptyStructT] ∧
    ¬(makeUnionType ([.numT] ++ [typeOf (.str "x")]) = typeOf (.str "x") ∧
        makeUnionType ([emptyStructT] ++ [typeOf emptyStructV]) = typeOf emptyStructV) ∧
    NewCommit (.str "x") (.setV [.refV 8 2 exNumCommitT]) emptyStructV =
      some (.structV (.structT "Commit" commitFieldNames
        [typeOf emptyStructV,
         .setT (.refT (.structT "Commit" commitFieldNames
           [makeUnionType ([emptyStructT] ++ [typeOf emptyStructV]), .setT (.refT (.cycleT 0)),
            makeUnionType ([.numT] ++ [typeOf (.str "x")])])),
         typeOf (.str "x")]) [emptyStructV, .setV [.refV 8 2 exNumCommitT], .str "x"]) :=
  ⟨by decide, by decide, by decide,
   newCommit_heterogeneous (.str "x") (.setV [.refV 8 2 exNumCommitT]) emptyStructV
     [.numT] [emptyStructT] (by decide) (by decide) (by decide)⟩

/-- C1 counterexample: for a construction whose single parent exposes the
number value type while the new commit has the string value type, the
computed parents field type is Set of Ref of a single Commit struct with
union-typed meta and value fields; it is not a union of one Commit struct
per distinct combination (under either reading of where the union sits),
refuting the claimed shape. -/
theorem newCommit_parents_not_union_of_structs :
    ((NewCommit (.str "x") (.setV [.refV 8 2 exNumCommitT]) emptyStructV).bind
        (fun c => parentsFieldTypeOf (typeOf c))) =
      some (.setT (.refT (.structT "Commit" commitFieldNames
        [emptyStructT, .setT (.refT (.cycleT 0)), .unionT [.numT, .strT]]))) ∧
    (.setT (.refT (.structT "Commit" commitFieldNames
        [emptyStructT, .setT (.refT (.cycleT 0)), .unionT [.numT, .strT]])) : NType) ≠
      .setT (.refT (.unionT [exNumCommitT, exStrCommitT])) ∧
    (.setT (.refT (.structT "Commit" commitFieldNames
        [emptyStructT, .setT (.refT (.cycleT 0)), .unionT [.numT, .strT]])) : NType) ≠
      .setT (.unionT [.refT exNumCommitT, .refT exStrCommitT]) := by
  refine ⟨by decide, by decide, by decide⟩

/-- C2: a chain of commits all built with the same value type and the
same meta type keeps, at every length, the homogeneous commit type whose
parents field type is the self-referential cyclic form Set of Ref of
Cycle 0. -/
theorem homogeneousChain_cyclic (T M : NType)
    (hT : makeUnionType [T] = T) (hM : makeUnionType [M] = M)
    (v0 m0 : NValue) (hv0 : typeOf v0 = T) (hm0 : typeOf m0 = M)
    (steps : List (NValue × NValue × Nat))
    (hsteps : ∀ s ∈ steps, typeOf s.1 = T ∧ typeOf s.2.1 = M) :
    ∃ c, homogeneousChain v0 m0 steps = some c ∧
      typeOf c = .structT "Commit" commitFieldNames [M, .setT (.refT (.cycleT 0)), T] := by
  induction steps with
  | nil =>
    have hpv : valueTypesFromParents (.setV []) ValueField = some [] := by decide
    have hpm : valueTypesFromParents (.setV []) MetaField = some [] := by decide
    have hv : makeUnionType ([] ++ [typeOf v0]) = typeOf v0 := by rw [hv0]; exact hT
    have hm : makeUnionType ([] ++ [typeOf m0]) = typeOf m0 := by rw [hm0]; exact hM
    refine ⟨_, newCommit_homogeneous v0 (.setV []) m0 [] [] hpv hpm hv hm, ?_⟩
    rw [typeOf, hv0, hm0]
  | cons s rest ih =>
    obtain ⟨v, m, h⟩ := s
    obtain ⟨prev, hprev, hty⟩ := ih (fun x hx => hsteps x (List.mem_cons_of_mem _ hx))
    obtain ⟨hv, hm⟩ := hsteps (v, m, h) (List.mem_cons_self _ _)
    simp only at hv hm
    have hpv : valueTypesFromParents (.setV [.refV h (maxRefHeight prev + 1) (typeOf prev)])
        ValueField = some [T] := by
      rw [hty]
      simp [valueTypesFromParents, typeOf, typeOfList, makeUnionType, unionElems,
        getSetElementType, fieldTypeFromRefOfCommit, getRefElementType, fieldTypeFromCommit,
        lookupField, commitFieldNames, MetaField, ParentsField, ValueField]
    have hpm : valueTypesFromParents (.setV [.refV h (maxRefHeight prev + 1) (typeOf prev)])
        MetaField = some [M] := by
      rw [hty]
      simp [valueTypesFromParents, typeOf, typeOfList, makeUnionType, unionElems,
        getSetElementType, fieldTypeFromRefOfCommit, getRefElementType, fieldTypeFromCommit,
        lookupField, commitFieldNames, MetaField, ParentsField, ValueField]
    have hvu : makeUnionType ([T] ++ [typeOf v]) = typeOf v := by
      rw [hv]; exact makeUnionType_pair T hT
    have hmu : makeUnionType ([M] ++ [typeOf m]) = typeOf m := by
      rw [hm]; exact makeUnionType_pair M hM
    refine ⟨.structV (.structT "Commit" commitFieldNames
        [typeOf m, .setT (.refT (.cycleT 0)), typeOf v])
        [m, .setV [.refV h (maxRefHeight prev + 1) (typeOf prev)], v], ?_, ?_⟩
    · show (homogeneousChain v0 m0 rest).bind
          (fun prev => NewCommit v (.setV [.refV h (maxRefHeight prev + 1) (typeOf prev)]) m) = _
      rw [hprev]
      show NewCommit v (.setV [.refV h (maxRefHeight prev + 1) (typeOf prev)]) m = _
      exact newCommit_homogeneous v _ m [T] [M] hpv hpm hvu hmu
    · rw [typeOf, hv, hm]

/-- C4 counterexample: a frontier commit at height 3 whose parents sit at
heights 2 and 1, against an ancestor at height 2: the code keeps only the
height-2 parent, while the claimed frontier (union of all parents of
expanded commits) also contains the height-1 parent. -/
theorem getAncestors_drops_low_parents :
    getAncestors exMixedStore [⟨20, 3, typeOf exMixedChild⟩] 2 =
      some [⟨21, 2, typeOf exRootHigh⟩] ∧
    claimedNextFrontier exMixedStore [⟨20, 3, typeOf exMixedChild⟩] 2 =
      some [⟨21, 2, typeOf exRootHigh⟩, ⟨22, 1, exNumCommitT⟩] ∧
    (⟨22, 1, exNumCommitT⟩ : NRef) ∉ [(⟨21, 2, typeOf exRootHigh⟩ : NRef)] := by
  refine ⟨by decide, by decide, by decide⟩

theorem mem_getAncestors (vr : Store) (commits : List NRef) (minHeight : Nat)
    (next : List NRef) (h : getAncestors vr commits minHeight = some next) (p : NRef) :
    p ∈ next ↔ ∃ r ∈ commits, minHeight < r.height ∧
      ∃ ps, commitParents vr r = some ps ∧ p ∈ ps ∧ minHeight ≤ p.height := by
  induction commits generalizing next with
  | nil =>
    rw [getAncestors] at h
    cases h
    simp
  | cons r rest ih =>
    rw [getAncestors] at h
    cases hc : commitParents vr r with
    | none => rw [hc] at h; exact absurd h (by simp)
    | some ps =>
      rw [hc] at h
      cases htail : getAncestors vr rest minHeight with
      | none => rw [htail] at h; exact absurd h (by simp)
      | some tail =>
        rw [htail] at h
        have hnext : ((if minHeight < r.height then
            ps.filter (fun p => minHeight ≤ p.height) else []) ++ tail) = next :=
          Option.some.inj h
        subst hnext
        rw [List.mem_append]
        constructor
        · rintro (hp | hp)
          · by_cases hr : minHeight < r.height
            · rw [if_pos hr] at hp
              rw [List.mem_filter] at hp
              exact ⟨r, List.mem_cons_self r rest, hr, ps, hc,
                hp.1, by simpa using hp.2⟩
            · rw [if_neg hr] at hp
              exact absurd hp (List.not_mem_nil p)
          · obtain ⟨r2, hr2, hlt, ps2, hps2, hmem, hht⟩ := (ih tail htail).mp hp
            exact ⟨r2, List.mem_cons_of_mem r hr2, hlt, ps2, hps2, hmem, hht⟩
        · rintro ⟨r2, hr2, hlt, ps2, hps2, hmem, hht⟩
          rcases List.mem_cons.mp hr2 with rfl | hr2
          · left
            rw [hps2] at hc
            cases hc
            rw [if_pos hlt, List.mem_filter]
            exact ⟨hmem, by simpa using hht⟩
          · right
            exact (ih tail htail).mpr ⟨r2, hr2, hlt, ps2, hps2, hmem, hht⟩

/-- C4 amended: a reference belongs to the next frontier computed by
getAncestors exactly when it is a parent of height at least the ancestor
height of some frontier commit of height strictly above the ancestor
height; parents below the ancestor height are discarded too, not only
frontier commits at or below it. -/
theorem getAncestors_mem (vr : Store) (commits : List NRef) (minHeight : Nat)
    (next : List NRef) (h : getAncestors vr commits minHeight = some next) (p : NRef) :
    p ∈ next ↔ ∃ r ∈ commits, minHeight < r.height ∧
      ∃ ps, commitParents vr r = some ps ∧ p ∈ ps ∧ minHeight ≤ p.height :=
  mem_getAncestors vr commits minHeight next h p

theorem getAncestors_mem_witness :
    getAncestors exMixedStore [⟨20, 3, typeOf exMixedChild⟩] 2 =
        some [⟨21, 2, typeOf exRootHigh⟩] ∧
      ((⟨21, 2, typeOf exRootHigh⟩ : NRef) ∈ [(⟨21, 2, typeOf exRootHigh⟩ : NRef)] ↔
        ∃ r ∈ [(⟨20, 3, typeOf exMixedChild⟩ : NRef)], 2 < r.height ∧
          ∃ ps, commitParents exMixedStore r = some ps ∧
            (⟨21, 2, typeOf exRootHigh⟩ : NRef) ∈ ps ∧
            2 ≤ (⟨21, 2, typeOf exRootHigh⟩ : NRef).height) :=
  ⟨by decide,
   getAncestors_mem exMixedStore [⟨20, 3, typeOf exMixedChild⟩] 2
     [⟨21, 2, typeOf exRootHigh⟩] (by decide) ⟨21, 2, typeOf exRootHigh⟩⟩

theorem lookupFieldV_mem {ns : List String} {vs : List NValue} {name : String} {v : NValue}
    (h : lookupFieldV ns vs name = some v) : v ∈ vs := by
  induction ns generalizing vs with
  | nil => simp [lookupFieldV] at h
  | cons n ns ih =>
    cases vs with
    | nil => simp [lookupFieldV] at h
    | cons w vs =>
      rw [lookupFieldV] at h
      by_cases hn : n = name
      · rw [if_pos hn] at h
        cases h
        exact List.mem_cons_self _ _
      · rw [if_neg hn] at h
        exact List.mem_cons_of_mem _ (ih h)

theorem maxRefHeight_le_of_mem {v : NValue} {l : List NValue} (h : v ∈ l) :
    maxRefHeight v ≤ maxRefHeightList l := by
  induction l with
  | nil => exact absurd h (List.not_mem_nil v)
  | cons w l ih =>
    rw [maxRefHeightList]
    rcases List.mem_cons.mp h with rfl | h
    · exact le_max_left _ _
    · exact le_trans (ih h) (le_max_right _ _)

theorem refsOfList_mem {es : List NValue} {ps : List NRef} {p : NRef}
    (h : refsOfList es = some ps) (hp : p ∈ ps) :
    NValue.refV p.targetHash p.height p.ttype ∈ es := by
  induction es generalizing ps with
  | nil => rw [refsOfList] at h; cases h; exact absurd hp (List.not_mem_nil p)
  | cons v rest ih =>
    match v, h with
    | .refV a b t, h =>
      rw [refsOfList] at h
      cases hrest : refsOfList rest with
      | none => rw [hrest] at h; exact absurd h (by simp)
      | some tail =>
        rw [hrest] at h
        have h2 : (⟨a, b, t⟩ : NRef) :: tail = ps := Option.some.inj h
        subst h2
        rcases List.mem_cons.mp hp with rfl | hp
        · exact List.mem_cons_self _ _
        · exact List.mem_cons_of_mem _ (ih hrest hp)

theorem parent_height_le {w : NValue} {ps : List NRef} {p : NRef}
    (h : commitParentsOfValue w = some ps) (hp : p ∈ ps) :
    p.height ≤ maxRefHeight w := by
  unfold commitParentsOfValue at h
  cases hg : structGet w ParentsField with
  | none => rw [hg] at h; exact absurd h (by simp)
  | some pv =>
    rw [hg] at h
    simp only [Option.some_bind] at h
    match w, hg with
    | .structV (.structT nm fns fts) fields, hg =>
      have hpv : pv ∈ fields := by
        rw [structGet] at hg
        exact lookupFieldV_mem hg
      match pv, h with
      | .setV es, h =>
        rw [refsOfSet] at h
        have hmem := refsOfList_mem h hp
        have h1 : p.height ≤ maxRefHeightList es := by
          have := maxRefHeight_le_of_mem hmem
          simpa [maxRefHeight] using this
        have h2 : maxRefHeightList es ≤ maxRefHeightList fields := by
          have := maxRefHeight_le_of_mem hpv
          simpa [maxRefHeight] using this
        calc p.height ≤ maxRefHeightList es := h1
          _ ≤ maxRefHeightList fields := h2
          _ = maxRefHeight (.structV (.structT nm fns fts) fields) := by rw [maxRefHeight]

theorem readValue_mem {vr : Store} {h : Nat} {w : NValue}
    (hr : readValue vr h = some w) : (h, w) ∈ vr := by
  unfold readValue at hr
  cases hf : vr.find? (fun p => p.1 == h) with
  | none => rw [hf] at hr; exact absurd hr (by simp)
  | some pair =>
    rw [hf] at hr
    replace hr : pair.2 = w := Option.some.inj hr
    have hmem := List.mem_of_find?_eq_some hf
    have hpred := List.find?_some hf
    have h1 : pair.1 = h := by simpa using hpred
    have : pair = (h, w) := by
      cases pair
      simp only at h1 hr
      rw [h1, hr]
    rw [← this]
    exact hmem

theorem wf_read {vr : Store} (hwf : WFStore vr) {h : Nat} {w : NValue}
    (hr : readValue vr h = some w) :
    ∃ ps, commitParentsOfValue w = some ps ∧ ∀ r ∈ ps, coherentRef vr r :=
  hwf.2 (h, w) (readValue_mem hr)

theorem asStruct_of_commitParents {w : NValue} {ps : List NRef}
    (h : commitParentsOfValue w = some ps) : asStruct w = some w := by
  unfold commitParentsOfValue at h
  cases hg : structGet w ParentsField with
  | none => rw [hg] at h; exact absurd h (by simp)
  | some pv =>
    match w, hg with
    | .structV t fields, hg => rw [asStruct]

theorem le_maxHeightQ {q : List NRef} {r : NRef} (h : r ∈ q) :
    r.height ≤ maxHeightQ q := by
  have haux : ∀ (l : List NRef) (a : Nat), a ≤ l.foldl (fun m r => max m r.height) a ∧
      ∀ r ∈ l, r.height ≤ l.foldl (fun m r => max m r.height) a := by
    intro l
    induction l with
    | nil => intro a; exact ⟨le_refl a, by simp⟩
    | cons x l ih =>
      intro a
      constructor
      · exact le_trans (le_max_left a x.height) (ih (max a x.height)).1
      · intro r hr
        rcases List.mem_cons.mp hr with rfl | hr
        · exact le_trans (le_max_right a r.height) (ih (max a r.height)).1
        · exact (ih (max a x.height)).2 r hr
  exact (haux q 0).2 r h

/-- Success and provenance of the concatenated parents of a popped group:
every produced reference is a parent of the dereferenced target of some
group member. -/
theorem parentsOfAll_spec {vr : Store} (hwf : WFStore vr) :
    ∀ {refs : List NRef}, (∀ r ∈ refs, coherentRef vr r) →
    ∃ ps, parentsOfAll vr refs = some ps ∧
      ∀ p ∈ ps, ∃ r ∈ refs, ∃ w, readValue vr r.targetHash = some w ∧
        ∃ psr, commitParentsOfValue w = some psr ∧ p ∈ psr := by
  intro refs
  induction refs with
  | nil => intro _; exact ⟨[], rfl, by simp⟩
  | cons r rest ih =>
    intro hcoh
    obtain ⟨w, hw, _⟩ := hcoh r (List.mem_cons_self _ _)
    obtain ⟨psr, hpsr, _⟩ := wf_read hwf hw
    obtain ⟨tail, htail, htailspec⟩ := ih (fun x hx => hcoh x (List.mem_cons_of_mem _ hx))
    refine ⟨psr ++ tail, ?_, ?_⟩
    · rw [parentsOfAll]
      show (do
        let ps ← commitParents vr r
        let t ← parentsOfAll vr rest
        pure (ps ++ t)) = some (psr ++ tail)
      rw [show commitParents vr r = some psr by
        unfold commitParents
        rw [hw]
        exact hpsr]
      rw [htail]
      rfl
    · intro p hp
      rcases List.mem_append.mp hp with hp | hp
      · exact ⟨r, List.mem_cons_self _ _, w, hw, psr, hpsr, hp⟩
      · obtain ⟨r2, hr2, w2, hw2, psr2, hpsr2, hmem2⟩ := htailspec p hp
        exact ⟨r2, List.mem_cons_of_mem _ hr2, w2, hw2, psr2, hpsr2, hmem2⟩

/-- Success of getAncestors on a coherent frontier over a well-formed
store, with provenance of the produced references. -/
theorem getAncestors_spec {vr : Store} (hwf : WFStore vr) (minHeight : Nat) :
    ∀ {fr : List NRef}, (∀ r ∈ fr, coherentRef vr r) →
    ∃ next, getAncestors vr fr minHeight = some next := by
  intro fr
  induction fr with
  | nil => intro _; exact ⟨[], rfl⟩
  | cons r rest ih =>
    intro hcoh
    obtain ⟨w, hw, _⟩ := hcoh r (List.mem_cons_self _ _)
    obtain ⟨psr, hpsr, _⟩ := wf_read hwf hw
    obtain ⟨tail, htail⟩ := ih (fun x hx => hcoh x (List.mem_cons_of_mem _ hx))
    refine ⟨(if minHeight < r.height then
      psr.filter (fun p : NRef => minHeight ≤ p.height) else []) ++ tail, ?_⟩
    rw [getAncestors]
    show (do
      let ps ← commitParents vr r
      let t ← getAncestors vr rest minHeight
      pure ((if minHeight < r.height then ps.filter (fun p : NRef => minHeight ≤ p.height) else []) ++ t)) = _
    rw [show commitParents vr r = some psr by
      unfold commitParents
      rw [hw]
      exact hpsr]
    rw [htail]
    rfl

theorem reach_height_le {vr : Store} (hwf : WFStore vr) {anc : NRef} :
    ∀ {n : Nat} {w : NValue},
    (∃ ps, commitParentsOfValue w = some ps ∧ ∀ r ∈ ps, coherentRef vr r) →
    reachB vr n w anc = true → anc.height ≤ maxRefHeight w := by
  intro n
  induction n with
  | zero => intro w _ hreach; rw [reachB] at hreach; exact absurd hreach (by simp)
  | succ m ih =>
    intro w hw hreach
    obtain ⟨ps, hps, hcoh⟩ := hw
    rw [reachB, hps] at hreach
    rcases Bool.or_eq_true_iff.mp hreach with hc | ha
    · have hmem : anc ∈ ps := by
        simpa using hc
      exact parent_height_le hps hmem
    · obtain ⟨p, hp, hpr⟩ := List.any_eq_true.mp ha
      cases hr : readValue vr p.targetHash with
      | none => rw [hr] at hpr; exact absurd hpr (by simp)
      | some w2 =>
        rw [hr] at hpr
        obtain ⟨w2', hw2', hpht⟩ := hcoh p hp
        rw [hr] at hw2'
        cases hw2'
        have h1 : anc.height ≤ maxRefHeight w2 := ih (wf_read hwf hr) hpr
        have h2 : p.height ≤ maxRefHeight w := parent_height_le hps hp
        omega

theorem descendsLoop_complete {vr : Store} (hwf : WFStore vr) (anc : NRef) :
    ∀ fuel (F : List NRef), (∀ r ∈ F, coherentRef vr r) → (∀ r ∈ F, r.height < fuel) →
    (∃ f ∈ F, RefReach vr f anc) →
    commitDescendsFromLoop vr anc fuel F = some true := by
  intro fuel
  induction fuel with
  | zero =>
    rintro F _ hht ⟨f, hf, _⟩
    exact absurd (hht f hf) (by omega)
  | succ k ih =>
    rintro F hcoh hht ⟨f, hf, hreach⟩
    rw [commitDescendsFromLoop]
    by_cases hmem : anc ∈ F
    · rw [if_pos hmem]
    · rw [if_neg hmem]
      have hne : F ≠ [] := by
        intro h
        subst h
        exact absurd hf (List.not_mem_nil f)
      rw [if_neg hne]
      have hfne : f ≠ anc := fun h => hmem (h ▸ hf)
      rcases hreach with rfl | ⟨n, w, hw, hreach⟩
      · exact absurd rfl hfne
      obtain ⟨F', hF'⟩ := getAncestors_spec hwf anc.height hcoh
      have hstep : (do
          let next ← getAncestors vr F anc.height
          commitDescendsFromLoop vr anc k next) =
          commitDescendsFromLoop vr anc k F' := by
        rw [hF']
        rfl
      rw [hstep]
      -- facts about members of the new frontier
      have hmemF' := fun p => mem_getAncestors vr F anc.height F' hF' p
      have hcohF' : ∀ p ∈ F', coherentRef vr p := by
        intro p hp
        obtain ⟨r, hr, _, psr, hpsr, hpmem, _⟩ := (hmemF' p).mp hp
        cases hrv : readValue vr r.targetHash with
        | none =>
          unfold commitParents at hpsr
          rw [hrv] at hpsr
          exact absurd hpsr (by simp)
        | some wr =>
          unfold commitParents at hpsr
          rw [hrv] at hpsr
          replace hpsr : commitParentsOfValue wr = some psr := hpsr
          obtain ⟨ps2, hps2, hcoh2⟩ := wf_read hwf hrv
          rw [hpsr] at hps2
          cases hps2
          exact hcoh2 p hpmem
      have hhtF' : ∀ p ∈ F', p.height < k := by
        intro p hp
        obtain ⟨r, hr, _, psr, hpsr, hpmem, _⟩ := (hmemF' p).mp hp
        cases hrv : readValue vr r.targetHash with
        | none =>
          unfold commitParents at hpsr
          rw [hrv] at hpsr
          exact absurd hpsr (by simp)
        | some wr =>
          unfold commitParents at hpsr
          rw [hrv] at hpsr
          replace hpsr : commitParentsOfValue wr = some psr := hpsr
          have hple : p.height ≤ maxRefHeight wr := parent_height_le hpsr hpmem
          obtain ⟨wr', hwr', hrht⟩ := hcoh r hr
          rw [hrv] at hwr'
          cases hwr'
          have := hht r hr
          omega
      apply ih F' hcohF' hhtF'
      -- the reachability invariant survives one expansion
      cases n with
      | zero => rw [reachB] at hreach; exact absurd hreach (by simp)
      | succ m =>
        cases hps : commitParentsOfValue w with
        | none => rw [reachB, hps] at hreach; exact absurd hreach (by simp)
        | some ps =>
          rw [reachB, hps] at hreach
          obtain ⟨wf', hwf', hfht⟩ := hcoh f hf
          rw [hw] at hwf'
          cases hwf'
          have hparents : commitParents vr f = some ps := by
            unfold commitParents
            rw [hw]
            exact hps
          rcases Bool.or_eq_true_iff.mp hreach with hc | ha
          · have hancps : anc ∈ ps := by simpa using hc
            have hancht : anc.height ≤ maxRefHeight w := parent_height_le hps hancps
            refine ⟨anc, ?_, Or.inl rfl⟩
            exact (hmemF' anc).mpr ⟨f, hf, by omega, ps, hparents, hancps, le_refl _⟩
          · obtain ⟨p, hp, hpr⟩ := List.any_eq_true.mp ha
            cases hr2 : readValue vr p.targetHash with
            | none => rw [hr2] at hpr; exact absurd hpr (by simp)
            | some w2 =>
              rw [hr2] at hpr
              obtain ⟨ps2, hps2, hcoh2⟩ := wf_read hwf hw
              rw [hps] at hps2
              cases hps2
              obtain ⟨w2', hw2', hpht⟩ := hcoh2 p hp
              rw [hr2] at hw2'
              cases hw2'
              have hanc2 : anc.height ≤ maxRefHeight w2 :=
                reach_height_le hwf (wf_read hwf hr2) hpr
              have hpw : p.height ≤ maxRefHeight w := parent_height_le hps hp
              refine ⟨p, ?_, Or.inr ⟨m, w2, hr2, hpr⟩⟩
              exact (hmemF' p).mpr ⟨f, hf, by omega, ps, hparents, hp, by omega⟩

theorem descends_high_ancestor_false {vr : Store} (hwf : WFStore vr) (c : NValue)
    (ps : List NRef) (hps : commitParentsOfValue c = some ps)
    (hcoh : ∀ r ∈ ps, coherentRef vr r) (anc : NRef)
    (hht : maxRefHeight c < anc.height) (hmem : anc ∉ ps) :
    CommitDescendsFrom c anc vr 2 = some false := by
  have hstart : CommitDescendsFrom c anc vr 2 = commitDescendsFromLoop vr anc 2 ps := by
    unfold CommitDescendsFrom
    unfold commitParentsOfValue at hps
    cases hg : structGet c ParentsField with
    | none => rw [hg] at hps; exact absurd hps (by simp)
    | some pv =>
      rw [hg] at hps
      replace hps : refsOfSet pv = some ps := hps
      show (do
        let init ← refsOfSet pv
        commitDescendsFromLoop vr anc 2 init) = _
      rw [hps]
      rfl
  rw [hstart, commitDescendsFromLoop, if_neg hmem]
  by_cases hnil : ps = []
  · rw [if_pos hnil]
  · rw [if_neg hnil]
    obtain ⟨F', hF'⟩ := getAncestors_spec hwf anc.height hcoh
    have hempty : F' = [] := by
      rw [List.eq_nil_iff_forall_not_mem]
      intro p hp
      obtain ⟨r, hr, hlt, _, _, _, _⟩ := (mem_getAncestors vr ps anc.height F' hF' p).mp hp
      have := parent_height_le hps hr
      omega
    subst hempty
    rw [show (do
      let next ← getAncestors vr ps anc.height
      commitDescendsFromLoop vr anc 1 next) = commitDescendsFromLoop vr anc 1 [] by
        rw [hF']
        rfl]
    simp [commitDescendsFromLoop]

/-- C3: over a well-formed store, a commit does not descend from its own
reference when that reference is not literally among its parents (the
search returns false after one pruned expansion), and it does descend
from every reference that is a direct parent or a transitive ancestor
reference reached through parents edges. -/
theorem commitDescendsFrom_ancestry (vr : Store) (hwf : WFStore vr) (c : NValue)
    (ps : List NRef) (hps : commitParentsOfValue c = some ps)
    (hcoh : ∀ r ∈ ps, coherentRef vr r) (hashF : NValue → Nat) (anc : NRef) :
    (NewRef c hashF ∉ ps → CommitDescendsFrom c (NewRef c hashF) vr 2 = some false) ∧
    (∀ n, reachB vr n c anc = true →
      CommitDescendsFrom c anc vr (maxRefHeight c + 1) = some true) := by
  constructor
  · intro hmem
    exact descends_high_ancestor_false hwf c ps hps hcoh (NewRef c hashF)
      (by simp [NewRef]) hmem
  · intro n hreach
    have hstart : CommitDescendsFrom c anc vr (maxRefHeight c + 1) =
        commitDescendsFromLoop vr anc (maxRefHeight c + 1) ps := by
      unfold CommitDescendsFrom
      unfold commitParentsOfValue at hps
      cases hg : structGet c ParentsField with
      | none => rw [hg] at hps; exact absurd hps (by simp)
      | some pv =>
        rw [hg] at hps
        replace hps : refsOfSet pv = some ps := hps
        show (do
          let init ← refsOfSet pv
          commitDescendsFromLoop vr anc (maxRefHeight c + 1) init) = _
        rw [hps]
        rfl
    rw [hstart]
    apply descendsLoop_complete hwf anc (maxRefHeight c + 1) ps hcoh
    · intro r hr
      have := parent_height_le hps hr
      omega
    · cases n with
      | zero => rw [reachB] at hreach; exact absurd hreach (by simp)
      | succ m =>
        rw [reachB, hps] at hreach
        rcases Bool.or_eq_true_iff.mp hreach with hc | ha
        · have hmem : anc ∈ ps := by simpa using hc
          exact ⟨anc, hmem, Or.inl rfl⟩
        · obtain ⟨p, hp, hpr⟩ := List.any_eq_true.mp ha
          cases hr2 : readValue vr p.targetHash with
          | none => rw [hr2] at hpr; exact absurd hpr (by simp)
          | some w2 =>
            rw [hr2] at hpr
            exact ⟨p, hp, Or.inr ⟨m, w2, hr2, hpr⟩⟩

theorem commitDescendsFrom_ancestry_witness :
    WFStore exDescStore ∧
    commitParentsOfValue exDescB = some [⟨1, 1, exNumCommitT⟩] ∧
    (∀ r ∈ [(⟨1, 1, exNumCommitT⟩ : NRef)], coherentRef exDescStore r) ∧
    NewRef exDescB exDescHash ∉ [(⟨1, 1, exNumCommitT⟩ : NRef)] ∧
    reachB exDescStore 1 exDescB ⟨1, 1, exNumCommitT⟩ = true ∧
    CommitDescendsFrom exDescB (NewRef exDescB exDescHash) exDescStore 2 = some false ∧
    CommitDescendsFrom exDescB ⟨1, 1, exNumCommitT⟩ exDescStore (maxRefHeight exDescB + 1) =
      some true :=
  ⟨by decide, by decide, by decide, by decide, by decide,
   (commitDescendsFrom_ancestry exDescStore (by decide) exDescB [⟨1, 1, exNumCommitT⟩]
     (by decide) (by decide) exDescHash ⟨1, 1, exNumCommitT⟩).1 (by decide),
   (commitDescendsFrom_ancestry exDescStore (by decide) exDescB [⟨1, 1, exNumCommitT⟩]
     (by decide) (by decide) exDescHash ⟨1, 1, exNumCommitT⟩).2 1 (by decide)⟩

theorem maxHeightQ_le {q : List NRef} {m : Nat} (h : ∀ r ∈ q, r.height ≤ m) :
    maxHeightQ q ≤ m := by
  have haux : ∀ (l : List NRef) (a : Nat), a ≤ m → (∀ r ∈ l, r.height ≤ m) →
      l.foldl (fun acc r => max acc r.height) a ≤ m := by
    intro l
    induction l with
    | nil => intro a ha _; exact ha
    | cons x l ih =>
      intro a ha hl
      exact ih (max a x.height)
        (max_le ha (hl x (List.mem_cons_self _ _)))
        (fun r hr => hl r (List.mem_cons_of_mem _ hr))
  exact haux q 0 (Nat.zero_le m) h

/-- One frontier expansion of the common-ancestor search: popping the
group at height h and pushing its parents succeeds over a well-formed
store, preserves coherence, only produces references that either survive
from the old frontier away from height h or sit strictly below h, and
stays inside any parent-closed hash set containing the old frontier. -/
theorem expand_frontier {vr : Store} (hwf : WFStore vr) {q : List NRef}
    (hcoh : ∀ r ∈ q, coherentRef vr r) (h : Nat) :
    ∃ q', parentsToQueue (popRefsOfHeight q h).1 (popRefsOfHeight q h).2 vr = some q' ∧
      (∀ x ∈ q', coherentRef vr x) ∧
      (∀ x ∈ q', (x ∈ q ∧ x.height ≠ h) ∨ x.height < h) ∧
      (∀ A : List Nat, hashesClosed vr A = true → (∀ r ∈ q, r.targetHash ∈ A) →
        ∀ x ∈ q', x.targetHash ∈ A) := by
  have hgsub : ∀ r ∈ (popRefsOfHeight q h).1, r ∈ q ∧ r.height = h := by
    intro r hr
    unfold popRefsOfHeight at hr
    have := List.mem_filter.mp hr
    exact ⟨this.1, by simpa using this.2⟩
  have hgcoh : ∀ r ∈ (popRefsOfHeight q h).1, coherentRef vr r :=
    fun r hr => hcoh r (hgsub r hr).1
  obtain ⟨ps, hps, hprov⟩ := parentsOfAll_spec hwf hgcoh
  refine ⟨(popRefsOfHeight q h).2 ++ ps, ?_, ?_, ?_, ?_⟩
  · unfold parentsToQueue
    rw [hps]
    rfl
  · intro x hx
    rcases List.mem_append.mp hx with hx | hx
    · unfold popRefsOfHeight at hx
      exact hcoh x (List.mem_filter.mp hx).1
    · obtain ⟨r, _, w, hw, psr, hpsr, hmem⟩ := hprov x hx
      obtain ⟨ps2, hps2, hcoh2⟩ := wf_read hwf hw
      rw [hpsr] at hps2
      cases hps2
      exact hcoh2 x hmem
  · intro x hx
    rcases List.mem_append.mp hx with hx | hx
    · unfold popRefsOfHeight at hx
      have := List.mem_filter.mp hx
      exact Or.inl ⟨this.1, by simpa using this.2⟩
    · obtain ⟨r, hr, w, hw, psr, hpsr, hmem⟩ := hprov x hx
      obtain ⟨hrq, hrh⟩ := hgsub r hr
      obtain ⟨w', hw', hrht⟩ := hcoh r hrq
      rw [hw] at hw'
      cases hw'
      have := parent_height_le hpsr hmem
      exact Or.inr (by omega)
  · intro A hA hsub x hx
    rcases List.mem_append.mp hx with hx | hx
    · unfold popRefsOfHeight at hx
      exact hsub x (List.mem_filter.mp hx).1
    · obtain ⟨r, hr, w, hw, psr, hpsr, hmem⟩ := hprov x hx
      have hrA : r.targetHash ∈ A := hsub r (hgsub r hr).1
      have h1 := List.all_eq_true.mp hA r.targetHash (by simpa using hrA)
      rw [hw] at h1
      have h2 : (match commitParentsOfValue w with
          | none => true
          | some ps2 => ps2.all fun p => A.contains p.targetHash) = true := h1
      rw [hpsr] at h2
      have h3 : psr.all (fun p => A.contains p.targetHash) = true := h2
      have hall := List.all_eq_true.mp h3 x hmem
      simpa using hall

theorem getAncestors_facts {vr : Store} (hwf : WFStore vr) {F F' : List NRef} {minHeight : Nat}
    (hcoh : ∀ r ∈ F, coherentRef vr r)
    (hF' : getAncestors vr F minHeight = some F') :
    ∀ p ∈ F', coherentRef vr p ∧ ∃ r ∈ F, p.height < r.height := by
  intro p hp
  obtain ⟨r, hr, hlt, psr, hpsr, hpmem, hph⟩ :=
    (mem_getAncestors vr F minHeight F' hF' p).mp hp
  cases hrv : readValue vr r.targetHash with
  | none =>
    unfold commitParents at hpsr
    rw [hrv] at hpsr
    exact absurd hpsr (by simp)
  | some wr =>
    unfold commitParents at hpsr
    rw [hrv] at hpsr
    replace hpsr : commitParentsOfValue wr = some psr := hpsr
    obtain ⟨ps2, hps2, hcoh2⟩ := wf_read hwf hrv
    rw [hpsr] at hps2
    cases hps2
    have hcohp := hcoh2 p hpmem
    have hple : p.height ≤ maxRefHeight wr := parent_height_le hpsr hpmem
    obtain ⟨w', hw', hrht⟩ := hcoh r hr
    rw [hrv] at hw'
    cases hw'
    exact ⟨hcohp, r, hr, by omega⟩

theorem descendsLoop_terminates {vr : Store} (hwf : WFStore vr) (anc : NRef) :
    ∀ fuel (F : List NRef), (∀ r ∈ F, coherentRef vr r) → (∀ r ∈ F, r.height ≤ fuel) →
    ∃ b, commitDescendsFromLoop vr anc (fuel + 1) F = some b := by
  intro fuel
  induction fuel with
  | zero =>
    intro F hcoh hht
    have hnil : F = [] := by
      rw [List.eq_nil_iff_forall_not_mem]
      intro r hr
      obtain ⟨w, hw, hh⟩ := hcoh r hr
      have := hht r hr
      omega
    subst hnil
    exact ⟨false, by simp [commitDescendsFromLoop]⟩
  | succ k ih =>
    intro F hcoh hht
    rw [commitDescendsFromLoop]
    by_cases hmem : anc ∈ F
    · exact ⟨true, by rw [if_pos hmem]⟩
    · rw [if_neg hmem]
      by_cases hnil : F = []
      · exact ⟨false, by rw [if_pos hnil]⟩
      · rw [if_neg hnil]
        obtain ⟨F', hF'⟩ := getAncestors_spec hwf anc.height hcoh
        have hfacts := getAncestors_facts hwf hcoh hF'
        obtain ⟨b, hb⟩ := ih F' (fun p hp => (hfacts p hp).1) (by
          intro p hp
          obtain ⟨_, r, hr, hlt⟩ := hfacts p hp
          have := hht r hr
          omega)
        refine ⟨b, ?_⟩
        rw [show (do
          let next ← getAncestors vr F anc.height
          commitDescendsFromLoop vr anc (k + 1) next) =
            commitDescendsFromLoop vr anc (k + 1) F' by
          rw [hF']
          rfl]
        exact hb

theorem findCommonRef_some {a b : List NRef} {r : NRef}
    (h : findCommonRef a b = some r) :
    r ∈ a ∧ r.targetHash ∈ b.map NRef.targetHash := by
  unfold findCommonRef at h
  refine ⟨List.mem_of_find?_eq_some h, ?_⟩
  have := List.find?_some h
  simpa using this

theorem fcaLoop_terminates {vr : Store} (hwf : WFStore vr) :
    ∀ fuel q1 q2, (∀ r ∈ q1, coherentRef vr r) → (∀ r ∈ q2, coherentRef vr r) →
    maxHeightQ q1 + maxHeightQ q2 < fuel →
    ∃ o, fcaLoop vr fuel q1 q2 = some o := by
  intro fuel
  induction fuel with
  | zero => intro q1 q2 _ _ h; omega
  | succ k ih =>
    intro q1 q2 hcoh1 hcoh2 hfuel
    rw [fcaLoop]
    by_cases hemp : q1 = [] ∨ q2 = []
    · exact ⟨none, by rw [if_pos hemp]⟩
    · rw [if_neg hemp]
      push_neg at hemp
      obtain ⟨hne1, hne2⟩ := hemp
      obtain ⟨r1, hr1⟩ := List.exists_mem_of_ne_nil q1 hne1
      obtain ⟨r2, hr2⟩ := List.exists_mem_of_ne_nil q2 hne2
      have h1pos : 1 ≤ maxHeightQ q1 := by
        obtain ⟨w, _, hh⟩ := hcoh1 r1 hr1
        have := le_maxHeightQ hr1
        omega
      have h2pos : 1 ≤ maxHeightQ q2 := by
        obtain ⟨w, _, hh⟩ := hcoh2 r2 hr2
        have := le_maxHeightQ hr2
        omega
      obtain ⟨q1', hq1', hcoh1', hht1', _⟩ := expand_frontier hwf hcoh1 (maxHeightQ q1)
      obtain ⟨q2', hq2', hcoh2', hht2', _⟩ := expand_frontier hwf hcoh2 (maxHeightQ q2)
      have hb1 : maxHeightQ q1' ≤ maxHeightQ q1 - 1 := by
        apply maxHeightQ_le
        intro r hr
        rcases hht1' r hr with ⟨hrq, hrne⟩ | hlt
        · have := le_maxHeightQ hrq
          omega
        · omega
      have hb2 : maxHeightQ q2' ≤ maxHeightQ q2 - 1 := by
        apply maxHeightQ_le
        intro r hr
        rcases hht2' r hr with ⟨hrq, hrne⟩ | hlt
        · have := le_maxHeightQ hrq
          omega
        · omega
      by_cases hEq : maxHeightQ q1 = maxHeightQ q2
      · rw [if_pos hEq]
        cases hfc : findCommonRef (popRefsOfHeight q1 (maxHeightQ q1)).1
            (popRefsOfHeight q2 (maxHeightQ q2)).1 with
        | some common =>
          simp only [hfc]
          obtain ⟨hcg, _⟩ := findCommonRef_some hfc
          have hcq : common ∈ q1 := by
            unfold popRefsOfHeight at hcg
            exact (List.mem_filter.mp hcg).1
          obtain ⟨w, hw, _⟩ := hcoh1 common hcq
          obtain ⟨psr, hpsr, _⟩ := wf_read hwf hw
          refine ⟨some w, ?_⟩
          rw [hw]
          show (do
            let s ← asStruct w
            pure (some s) : Option (Option NValue)) = some (some w)
          rw [asStruct_of_commitParents hpsr]
          rfl
        | none =>
          simp only [hfc]
          obtain ⟨o, ho⟩ := ih q1' q2' hcoh1' hcoh2' (by omega)
          refine ⟨o, ?_⟩
          rw [hq1']
          show (do
            let q2n ← parentsToQueue (popRefsOfHeight q2 (maxHeightQ q2)).1
              (popRefsOfHeight q2 (maxHeightQ q2)).2 vr
            fcaLoop vr k q1' q2n) = some o
          rw [hq2']
          exact ho
      · rw [if_neg hEq]
        by_cases hgt : maxHeightQ q1 > maxHeightQ q2
        · rw [if_pos hgt]
          obtain ⟨o, ho⟩ := ih q1' q2 hcoh1' hcoh2 (by omega)
          refine ⟨o, ?_⟩
          rw [show (do
            let q1n ← parentsToQueue (popRefsOfHeight q1 (maxHeightQ q1)).1
              (popRefsOfHeight q1 (maxHeightQ q1)).2 vr
            fcaLoop vr k q1n q2) = fcaLoop vr k q1' q2 by
            rw [hq1']
            rfl]
          exact ho
        · rw [if_neg hgt]
          obtain ⟨o, ho⟩ := ih q1 q2' hcoh1 hcoh2' (by omega)
          refine ⟨o, ?_⟩
          rw [show (do
            let q2n ← parentsToQueue (popRefsOfHeight q2 (maxHeightQ q2)).1
              (popRefsOfHeight q2 (maxHeightQ q2)).2 vr
            fcaLoop vr k q1 q2n) = fcaLoop vr k q1 q2' by
            rw [hq2']
            rfl]
          exact ho

/-- C9: under the height invariant of a well-formed store (every parent
reference is coherent, hence of strictly smaller height than any
reference to its child), both ancestry operations reach a decided state
within an explicit fuel bound: the descent search returns a boolean and
the common-ancestor search either panics on its precondition or returns
a result. -/
theorem ancestry_terminates (vr : Store) (hwf : WFStore vr) (c : NValue)
    (ps : List NRef) (hps : commitParentsOfValue c = some ps)
    (hcoh : ∀ r ∈ ps, coherentRef vr r) (anc : NRef)
    (c1 c2 : NValue) (hashF : NValue → Nat)
    (hc1 : coherentRef vr (NewRef c1 hashF)) (hc2 : coherentRef vr (NewRef c2 hashF)) :
    (∃ b, CommitDescendsFrom c anc vr (maxRefHeight c + 1) = some b) ∧
    (FindCommonAncestor c1 c2 vr hashF (maxRefHeight c1 + maxRefHeight c2 + 3) = .panicked ∨
      ∃ o, FindCommonAncestor c1 c2 vr hashF (maxRefHeight c1 + maxRefHeight c2 + 3) =
        .ok (some o)) := by
  constructor
  · have hstart : CommitDescendsFrom c anc vr (maxRefHeight c + 1) =
        commitDescendsFromLoop vr anc (maxRefHeight c + 1) ps := by
      unfold CommitDescendsFrom
      unfold commitParentsOfValue at hps
      cases hg : structGet c ParentsField with
      | none => rw [hg] at hps; exact absurd hps (by simp)
      | some pv =>
        rw [hg] at hps
        replace hps : refsOfSet pv = some ps := hps
        show (do
          let init ← refsOfSet pv
          commitDescendsFromLoop vr anc (maxRefHeight c + 1) init) = _
        rw [hps]
        rfl
    rw [hstart]
    exact descendsLoop_terminates hwf anc (maxRefHeight c) ps hcoh
      (fun r hr => parent_height_le hps hr)
  · unfold FindCommonAncestor
    by_cases hcm1 : IsCommitType (typeOf c1) = true
    · by_cases hcm2 : IsCommitType (typeOf c2) = true
      · right
        rw [if_neg (by simpa using hcm1), if_neg (by simpa using hcm2)]
        obtain ⟨o, ho⟩ := fcaLoop_terminates hwf (maxRefHeight c1 + maxRefHeight c2 + 3)
          [NewRef c1 hashF] [NewRef c2 hashF]
          (by
            intro r hr
            rw [List.mem_singleton] at hr
            subst hr
            exact hc1)
          (by
            intro r hr
            rw [List.mem_singleton] at hr
            subst hr
            exact hc2)
          (by
            have e1 : maxHeightQ [NewRef c1 hashF] = maxRefHeight c1 + 1 := by
              simp [maxHeightQ, NewRef]
            have e2 : maxHeightQ [NewRef c2 hashF] = maxRefHeight c2 + 1 := by
              simp [maxHeightQ, NewRef]
            omega)
        exact ⟨o, by rw [ho]⟩
      · left
        rw [if_neg (by simpa using hcm1), if_pos (by simpa using hcm2)]
    · left
      rw [if_pos (by simpa using hcm1)]

theorem ancestry_terminates_witness :
    WFStore exDescStore ∧
    commitParentsOfValue exDescB = some [⟨1, 1, exNumCommitT⟩] ∧
    (∀ r ∈ [(⟨1, 1, exNumCommitT⟩ : NRef)], coherentRef exDescStore r) ∧
    coherentRef exDescStore (NewRef exRoot1 exDescHash) ∧
    coherentRef exDescStore (NewRef exDescB exDescHash) ∧
    ((∃ b, CommitDescendsFrom exDescB ⟨1, 1, exNumCommitT⟩ exDescStore
        (maxRefHeight exDescB + 1) = some b) ∧
      (FindCommonAncestor exRoot1 exDescB exDescStore exDescHash
          (maxRefHeight exRoot1 + maxRefHeight exDescB + 3) = .panicked ∨
        ∃ o, FindCommonAncestor exRoot1 exDescB exDescStore exDescHash
          (maxRefHeight exRoot1 + maxRefHeight exDescB + 3) = .ok (some o))) :=
  ⟨by decide, by decide, by decide, by decide, by decide,
   ancestry_terminates exDescStore (by decide) exDescB [⟨1, 1, exNumCommitT⟩]
     (by decide) (by decide) ⟨1, 1, exNumCommitT⟩ exRoot1 exDescB exDescHash
     (by decide) (by decide)⟩

theorem fcaLoop_disjoint {vr : Store} (hwf : WFStore vr) {A1 A2 : List Nat}
    (hA1 : hashesClosed vr A1 = true) (hA2 : hashesClosed vr A2 = true)
    (hdisj : ∀ h ∈ A1, h ∉ A2) :
    ∀ fuel q1 q2, (∀ r ∈ q1, coherentRef vr r) → (∀ r ∈ q2, coherentRef vr r) →
    (∀ r ∈ q1, r.targetHash ∈ A1) → (∀ r ∈ q2, r.targetHash ∈ A2) →
    maxHeightQ q1 + maxHeightQ q2 < fuel →
    fcaLoop vr fuel q1 q2 = some none := by
  intro fuel
  induction fuel with
  | zero => intro q1 q2 _ _ _ _ h; omega
  | succ k ih =>
    intro q1 q2 hcoh1 hcoh2 hin1 hin2 hfuel
    rw [fcaLoop]
    by_cases hemp : q1 = [] ∨ q2 = []
    · rw [if_pos hemp]
    · rw [if_neg hemp]
      push_neg at hemp
      obtain ⟨hne1, hne2⟩ := hemp
      obtain ⟨r1, hr1⟩ := List.exists_mem_of_ne_nil q1 hne1
      obtain ⟨r2, hr2⟩ := List.exists_mem_of_ne_nil q2 hne2
      have h1pos : 1 ≤ maxHeightQ q1 := by
        obtain ⟨w, _, hh⟩ := hcoh1 r1 hr1
        have := le_maxHeightQ hr1
        omega
      have h2pos : 1 ≤ maxHeightQ q2 := by
        obtain ⟨w, _, hh⟩ := hcoh2 r2 hr2
        have := le_maxHeightQ hr2
        omega
      obtain ⟨q1', hq1', hcoh1', hht1', hcl1'⟩ := expand_frontier hwf hcoh1 (maxHeightQ q1)
      obtain ⟨q2', hq2', hcoh2', hht2', hcl2'⟩ := expand_frontier hwf hcoh2 (maxHeightQ q2)
      have hb1 : maxHeightQ q1' ≤ maxHeightQ q1 - 1 := by
        apply maxHeightQ_le
        intro r hr
        rcases hht1' r hr with ⟨hrq, hrne⟩ | hlt
        · have := le_maxHeightQ hrq
          omega
        · omega
      have hb2 : maxHeightQ q2' ≤ maxHeightQ q2 - 1 := by
        apply maxHeightQ_le
        intro r hr
        rcases hht2' r hr with ⟨hrq, hrne⟩ | hlt
        · have := le_maxHeightQ hrq
          omega
        · omega
      by_cases hEq : maxHeightQ q1 = maxHeightQ q2
      · rw [if_pos hEq]
        cases hfc : findCommonRef (popRefsOfHeight q1 (maxHeightQ q1)).1
            (popRefsOfHeight q2 (maxHeightQ q2)).1 with
        | some common =>
          exfalso
          obtain ⟨hcg, hch⟩ := findCommonRef_some hfc
          have hc1 : common.targetHash ∈ A1 := by
            unfold popRefsOfHeight at hcg
            exact hin1 common (List.mem_filter.mp hcg).1
          obtain ⟨x, hx, hxh⟩ := List.mem_map.mp hch
          have hc2 : common.targetHash ∈ A2 := by
            unfold popRefsOfHeight at hx
            rw [← hxh]
            exact hin2 x (List.mem_filter.mp hx).1
          exact hdisj common.targetHash hc1 hc2
        | none =>
          simp only [hfc]
          have hres := ih q1' q2' hcoh1' hcoh2'
            (hcl1' A1 hA1 hin1) (hcl2' A2 hA2 hin2) (by omega)
          rw [hq1']
          show (do
            let q2n ← parentsToQueue (popRefsOfHeight q2 (maxHeightQ q2)).1
              (popRefsOfHeight q2 (maxHeightQ q2)).2 vr
            fcaLoop vr k q1' q2n) = some none
          rw [hq2']
          exact hres
      · rw [if_neg hEq]
        by_cases hgt : maxHeightQ q1 > maxHeightQ q2
        · rw [if_pos hgt]
          have hres := ih q1' q2 hcoh1' hcoh2 (hcl1' A1 hA1 hin1) hin2 (by omega)
          rw [hq1']
          exact hres
        · rw [if_neg hgt]
          have hres := ih q1 q2' hcoh1 hcoh2' hin1 (hcl2' A2 hA2 hin2) (by omega)
          rw [hq2']
          exact hres

theorem fcaLoop_none_iff_exitsEmpty (vr : Store) :
    ∀ fuel q1 q2, (fcaLoop vr fuel q1 q2 = some none ↔
      fcaExitsEmpty vr fuel q1 q2 = true) := by
  intro fuel
  induction fuel with
  | zero =>
    intro q1 q2
    rw [fcaLoop, fcaExitsEmpty]
    simp
  | succ k ih =>
    intro q1 q2
    rw [fcaLoop, fcaExitsEmpty]
    by_cases hemp : q1 = [] ∨ q2 = []
    · rw [if_pos hemp, if_pos hemp]
      simp
    · rw [if_neg hemp, if_neg hemp]
      by_cases hEq : maxHeightQ q1 = maxHeightQ q2
      · rw [if_pos hEq, if_pos hEq]
        cases hfc : findCommonRef (popRefsOfHeight q1 (maxHeightQ q1)).1
            (popRefsOfHeight q2 (maxHeightQ q2)).1 with
        | some common =>
          simp only [hfc]
          constructor
          · intro h
            exfalso
            cases hv : readValue vr common.targetHash with
            | none => rw [hv] at h; exact Option.noConfusion h
            | some w =>
              rw [hv] at h
              replace h : (do
                let s ← asStruct w
                pure (some s) : Option (Option NValue)) = some none := h
              cases hs : asStruct w with
              | none =>
                rw [hs] at h
                exact Option.noConfusion h
              | some s =>
                rw [hs] at h
                exact Option.noConfusion (Option.some.inj h)
          · intro h
            exact absurd h (by simp)
        | none =>
          simp only [hfc]
          cases hq1 : parentsToQueue (popRefsOfHeight q1 (maxHeightQ q1)).1
              (popRefsOfHeight q1 (maxHeightQ q1)).2 vr with
          | none => simp
          | some q1' =>
            cases hq2 : parentsToQueue (popRefsOfHeight q2 (maxHeightQ q2)).1
                (popRefsOfHeight q2 (maxHeightQ q2)).2 vr with
            | none => simp
            | some q2' => exact ih q1' q2'
      · rw [if_neg hEq, if_neg hEq]
        by_cases hgt : maxHeightQ q1 > maxHeightQ q2
        · rw [if_pos hgt, if_pos hgt]
          cases hq1 : parentsToQueue (popRefsOfHeight q1 (maxHeightQ q1)).1
              (popRefsOfHeight q1 (maxHeightQ q1)).2 vr with
          | none => simp
          | some q1' => exact ih q1' q2
        · rw [if_neg hgt, if_neg hgt]
          cases hq2 : parentsToQueue (popRefsOfHeight q2 (maxHeightQ q2)).1
              (popRefsOfHeight q2 (maxHeightQ q2)).2 vr with
          | none => simp
          | some q2' => exact ih q1 q2'

/-- C5: over a well-formed store, two commits whose ancestor hash sets
are disjoint make FindCommonAncestor return the successful
no-common-ancestor outcome within an explicit fuel bound, and in general
the loop returns that outcome exactly when one of the two frontiers
empties before a shared reference is found. -/
theorem fca_no_common_ancestor (vr : Store) (hwf : WFStore vr)
    (c1 c2 : NValue) (hashF : NValue → Nat) (A1 A2 : List Nat)
    (hA1 : hashesClosed vr A1 = true) (hA2 : hashesClosed vr A2 = true)
    (h1 : hashF c1 ∈ A1) (h2 : hashF c2 ∈ A2)
    (hdisj : ∀ h ∈ A1, h ∉ A2)
    (hcm1 : IsCommitType (typeOf c1) = true) (hcm2 : IsCommitType (typeOf c2) = true)
    (hcoh1 : coherentRef vr (NewRef c1 hashF)) (hcoh2 : coherentRef vr (NewRef c2 hashF)) :
    FindCommonAncestor c1 c2 vr hashF (maxRefHeight c1 + maxRefHeight c2 + 3) =
      .ok (some none) ∧
    (∀ fuel q1 q2, fcaLoop vr fuel q1 q2 = some none ↔
      fcaExitsEmpty vr fuel q1 q2 = true) := by
  constructor
  · unfold FindCommonAncestor
    rw [if_neg (by simpa using hcm1), if_neg (by simpa using hcm2)]
    have := fcaLoop_disjoint hwf hA1 hA2 hdisj
      (maxRefHeight c1 + maxRefHeight c2 + 3)
      [NewRef c1 hashF] [NewRef c2 hashF]
      (by
        intro r hr
        rw [List.mem_singleton] at hr
        subst hr
        exact hcoh1)
      (by
        intro r hr
        rw [List.mem_singleton] at hr
        subst hr
        exact hcoh2)
      (by
        intro r hr
        rw [List.mem_singleton] at hr
        subst hr
        exact h1)
      (by
        intro r hr
        rw [List.mem_singleton] at hr
        subst hr
        exact h2)
      (by
        have e1 : maxHeightQ [NewRef c1 hashF] = maxRefHeight c1 + 1 := by
          simp [maxHeightQ, NewRef]
        have e2 : maxHeightQ [NewRef c2 hashF] = maxRefHeight c2 + 1 := by
          simp [maxHeightQ, NewRef]
        omega)
    rw [this]
  · exact fcaLoop_none_iff_exitsEmpty vr

theorem fca_no_common_ancestor_witness :
    WFStore exDisjStore ∧
    hashesClosed exDisjStore [1] = true ∧
    hashesClosed exDisjStore [3] = true ∧
    exDisjHash exRoot1 ∈ [1] ∧ exDisjHash exRootOther ∈ [3] ∧
    (∀ h ∈ [1], h ∉ [3]) ∧
    IsCommitType (typeOf exRoot1) = true ∧
    IsCommitType (typeOf exRootOther) = true ∧
    coherentRef exDisjStore (NewRef exRoot1 exDisjHash) ∧
    coherentRef exDisjStore (NewRef exRootOther exDisjHash) ∧
    FindCommonAncestor exRoot1 exRootOther exDisjStore exDisjHash
      (maxRefHeight exRoot1 + maxRefHeight exRootOther + 3) = .ok (some none) :=
  ⟨by decide, by decide, by decide, by decide, by decide, by decide, by decide,
   by decide, by decide, by decide,
   (fca_no_common_ancestor exDisjStore (by decide) exRoot1 exRootOther exDisjHash
     [1] [3] (by decide) (by decide) (by decide) (by decide) (by decide)
     (by decide) (by decide) (by decide) (by decide)).1⟩

theorem findCommonRef_none_symm {a b : List NRef}
    (h : findCommonRef a b = none) : findCommonRef b a = none := by
  unfold findCommonRef at h ⊢
  rw [List.find?_eq_none] at h ⊢
  intro s hs hcon
  have hsh : s.targetHash ∈ a.map NRef.targetHash := by simpa using hcon
  obtain ⟨r, hr, hrh⟩ := List.mem_map.mp hsh
  apply h r hr
  have : r.targetHash ∈ b.map NRef.targetHash := by
    rw [hrh]
    exact List.mem_map_of_mem NRef.targetHash hs
  simpa using this

theorem findCommonRef_mirror {a b : List NRef} {r : NRef}
    (hone : atMostOneCommonHash a b = true)
    (h : findCommonRef a b = some r) :
    ∃ s, findCommonRef b a = some s ∧ s.targetHash = r.targetHash := by
  cases hm : findCommonRef b a with
  | none => exact absurd (findCommonRef_none_symm hm) (by rw [h]; exact fun hh => Option.noConfusion hh)
  | some s =>
    refine ⟨s, rfl, ?_⟩
    obtain ⟨hra, hrb⟩ := findCommonRef_some h
    obtain ⟨hsb, hsa⟩ := findCommonRef_some hm
    unfold atMostOneCommonHash at hone
    have hrcs : r.targetHash ∈ (a.map NRef.targetHash).filter
        (fun h => (b.map NRef.targetHash).contains h) := by
      rw [List.mem_filter]
      exact ⟨List.mem_map_of_mem NRef.targetHash hra, by simpa using hrb⟩
    have hscs : s.targetHash ∈ (a.map NRef.targetHash).filter
        (fun h => (b.map NRef.targetHash).contains h) := by
      rw [List.mem_filter]
      exact ⟨hsa, by simpa using List.mem_map_of_mem NRef.targetHash hsb⟩
    have hall := List.all_eq_true.mp hone s.targetHash hscs
    have := List.all_eq_true.mp hall r.targetHash hrcs
    simpa using this

theorem fcaLoop_mirror (vr : Store) :
    ∀ fuel q1 q2, noTies vr fuel q1 q2 = true →
    fcaLoop vr fuel q1 q2 = fcaLoop vr fuel q2 q1 := by
  intro fuel
  induction fuel with
  | zero => intro q1 q2 _; rfl
  | succ k ih =>
    intro q1 q2 hnt
    rw [noTies] at hnt
    simp only [fcaLoop]
    by_cases hemp : q1 = [] ∨ q2 = []
    · rw [if_pos hemp, if_pos (Or.symm hemp)]
    · rw [if_neg hemp, if_neg (fun h => hemp (Or.symm h))]
      rw [if_neg hemp] at hnt
      by_cases hEq : maxHeightQ q1 = maxHeightQ q2
      · rw [if_pos hEq] at hnt
        rw [if_pos hEq, if_pos hEq.symm]
        cases hfc : findCommonRef (popRefsOfHeight q1 (maxHeightQ q1)).1
            (popRefsOfHeight q2 (maxHeightQ q2)).1 with
        | some common =>
          simp only [hfc] at hnt ⊢
          obtain ⟨hone, _⟩ := Bool.and_eq_true_iff.mp hnt
          obtain ⟨s, hs, hsh⟩ := findCommonRef_mirror hone hfc
          simp only [hs]
          rw [hsh]
        | none =>
          simp only [hfc] at hnt ⊢
          obtain ⟨hone, hrest⟩ := Bool.and_eq_true_iff.mp hnt
          have hm := findCommonRef_none_symm hfc
          simp only [hm]
          cases hq1 : parentsToQueue (popRefsOfHeight q1 (maxHeightQ q1)).1
              (popRefsOfHeight q1 (maxHeightQ q1)).2 vr with
          | none =>
            cases hq2 : parentsToQueue (popRefsOfHeight q2 (maxHeightQ q2)).1
                (popRefsOfHeight q2 (maxHeightQ q2)).2 vr with
            | none => rfl
            | some q2' => rfl
          | some q1' =>
            cases hq2 : parentsToQueue (popRefsOfHeight q2 (maxHeightQ q2)).1
                (popRefsOfHeight q2 (maxHeightQ q2)).2 vr with
            | none => rfl
            | some q2' =>
              rw [hq1, hq2] at hrest
              replace hrest : noTies vr k q1' q2' = true := hrest
              exact ih q1' q2' hrest
      · have hEq2 : ¬ maxHeightQ q2 = maxHeightQ q1 := fun h => hEq h.symm
        rw [if_neg hEq, if_neg hEq2]
        rw [if_neg hEq] at hnt
        by_cases hgt : maxHeightQ q1 > maxHeightQ q2
        · rw [if_pos hgt, if_neg (by omega : ¬ maxHeightQ q2 > maxHeightQ q1)]
          rw [if_pos hgt] at hnt
          cases hq1 : parentsToQueue (popRefsOfHeight q1 (maxHeightQ q1)).1
              (popRefsOfHeight q1 (maxHeightQ q1)).2 vr with
          | none => rfl
          | some q1' =>
            rw [hq1] at hnt
            replace hnt : noTies vr k q1' q2 = true := hnt
            exact ih q1' q2 hnt
        · rw [if_neg hgt,
            if_pos (by omega : maxHeightQ q2 > maxHeightQ q1)]
          rw [if_neg hgt] at hnt
          cases hq2 : parentsToQueue (popRefsOfHeight q2 (maxHeightQ q2)).1
              (popRefsOfHeight q2 (maxHeightQ q2)).2 vr with
          | none => rfl
          | some q2' =>
            rw [hq2] at hnt
            replace hnt : noTies vr k q1 q2' = true := hnt
            exact ih q1 q2' hnt

/-- C6 counterexample: two commits with the same two roots as parents,
whose parents sets iterate in different orders, make the two symmetric
calls return two different common ancestors (the source iterates popped
groups and a hash-keyed Go map in unspecified order; the model realises
that order as list order). -/
theorem fca_not_symmetric :
    FindCommonAncestor exChild12 exChild21 exTieStore exTieHash 5 =
      .ok (some (some exRoot1)) ∧
    FindCommonAncestor exChild21 exChild12 exTieStore exTieHash 5 =
      .ok (some (some exRoot2)) ∧
    exRoot1 ≠ exRoot2 :=
  ⟨by decide, by decide, by decide⟩

/-- C6 amended: the two symmetric calls agree (so in particular, whenever
both return a result the returned commit values are equal) provided the
run is tie-free: whenever the two frontiers pop groups of equal height,
the groups share at most one target hash.  Without that proviso the
result depends on iteration order and the two calls may differ. -/
theorem fca_symmetric_of_noTies (c1 c2 : NValue) (vr : Store) (hashF : NValue → Nat)
    (fuel : Nat)
    (hnt : noTies vr fuel [NewRef c1 hashF] [NewRef c2 hashF] = true) :
    FindCommonAncestor c1 c2 vr hashF fuel = FindCommonAncestor c2 c1 vr hashF fuel := by
  unfold FindCommonAncestor
  by_cases h1 : IsCommitType (typeOf c1) = true
  · by_cases h2 : IsCommitType (typeOf c2) = true
    · rw [if_neg (not_not_intro h1), if_neg (not_not_intro h2),
        if_neg (not_not_intro h2), if_neg (not_not_intro h1)]
      exact congrArg PanicOr.ok (fcaLoop_mirror vr fuel _ _ hnt)
    · rw [if_neg (not_not_intro h1), if_pos h2, if_pos h2]
  · by_cases h2 : IsCommitType (typeOf c2) = true
    · rw [if_pos h1, if_neg (not_not_intro h2), if_pos h1]
    · rw [if_pos h1, if_pos h2]

theorem fca_symmetric_of_noTies_witness :
    noTies exSymStore 5 [NewRef exDescB exSymHash] [NewRef exDescB2 exSymHash] = true ∧
    FindCommonAncestor exDescB exDescB2 exSymStore exSymHash 5 =
      FindCommonAncestor exDescB2 exDescB exSymStore exSymHash 5 :=
  ⟨by decide, fca_symmetric_of_noTies exDescB exDescB2 exSymStore exSymHash 5 (by decide)⟩

theorem homogeneousChain_cyclic_witness :
    makeUnionType [NType.numT] = .numT ∧
    makeUnionType [emptyStructT] = emptyStructT ∧
    typeOf (.num 1) = .numT ∧
    typeOf emptyStructV = emptyStructT ∧
    (∀ s ∈ [((.num 2 : NValue), emptyStructV, 7), ((.num 3 : NValue), emptyStructV, 8)],
      typeOf s.1 = NType.numT ∧ typeOf s.2.1 = emptyStructT) ∧
    ∃ c, homogeneousChain (.num 1) emptyStructV
        [((.num 2 : NValue), emptyStructV, 7), ((.num 3 : NValue), emptyStructV, 8)] = some c ∧
      typeOf c = .structT "Commit" commitFieldNames
        [emptyStructT, .setT (.refT (.cycleT 0)), .numT] :=
  ⟨by decide, by decide, by decide, by decide, by decide,
   homogeneousChain_cyclic .numT emptyStructT (by decide) (by decide)
     (.num 1) emptyStructV (by decide) (by decide)
     [((.num 2 : NValue), emptyStructV, 7), ((.num 3 : NValue), emptyStructV, 8)]
     (by decide)⟩

end Nomstack
